import Mathlib

/- Shallow embedding of the control-affine density-propagation core of the
repository (`systems/ControlAffineSystem.py`, `systems/utils.py`, and the
callers in `density_estimation/compute_rawdata.py`).

Tensors are idealised over `ℚ` (exact arithmetic); the batch dimension is a
`List`; the IEEE special values (`inf`, `-inf`, `nan`) that matter for the
density clamping logic are modelled by the carrier `FVal`.  `torch.log` is
modelled by its exact branch structure (a negative argument gives `nan`, zero
gives `-inf`) together with an arbitrary value table `plog` for positive
arguments.  Reverse-mode automatic differentiation of the controller is
modelled by a gradient oracle (`ugrad`): `ugrad x xref uref i` stands for the
gradient of the `i`-th controller output with respect to `x`, which is what
one backward pass of `torch.autograd.grad` returns in `systems.utils.jacobian`. -/

namespace DensityMP

abbrev Vec (n : ℕ) : Type := Fin n → ℚ

/- Sum of a function over `Fin n`, by structural recursion (used for the
`bmm`/`sum` tensor contractions; kernel-evaluable on concrete inputs). -/
def finSum : (n : ℕ) → (Fin n → ℚ) → ℚ
  | 0, _ => 0
  | n + 1, f => finSum n (fun i => f i.castSucc) + f (Fin.last n)

/- A control-affine system `xdot = a(x) + b(x) u` together with the bound
tensors carried by the `ControlAffineSystem` subclasses and the externally
supplied differentiable controller `u` with its gradient oracle `ugrad`. -/
structure CASys (nx nu : ℕ) where
  a : Vec nx → Vec nx
  dadx : Vec nx → Fin nx → Fin nx → ℚ
  b : Vec nx → Fin nx → Fin nu → ℚ
  dbdx : Vec nx → Fin nx → Fin nu → Fin nx → ℚ
  u : Vec nx → Vec nx → Vec nu → Vec nu
  ugrad : Vec nx → Vec nx → Vec nu → Fin nu → Vec nx
  X_MIN : Vec nx
  X_MAX : Vec nx
  XREF0_MIN : Vec nx
  XREF0_MAX : Vec nx
  XE0_MIN : Vec nx
  XE0_MAX : Vec nx
  UREF_MIN : Vec nu
  UREF_MAX : Vec nu
  UPOLYN_MIN : ℚ
  UPOLYN_MAX : ℚ
  USIN_AMPL : ℚ
  USIN_WIDE : ℚ

variable {nx nu : ℕ}

/- `systems.utils.jacobian`: the dense Jacobian is assembled row by row, row
`i` being the gradient of output component `i` (one reverse-mode backward
pass per output dimension). -/
def jacobian {m n : ℕ} (rowGrad : Fin m → Vec n) : Fin m → Fin n → ℚ :=
  fun i => rowGrad i

/- `ControlAffineSystem.u_func` (per sample). -/
def u_func (sys : CASys nx nu) (x xref : Vec nx) (uref : Vec nu) : Vec nu :=
  sys.u x xref uref

/- `ControlAffineSystem.dudx_func` (per sample): Jacobian of the controller,
assembled by `jacobian` from the per-output gradients. -/
def dudx_func (sys : CASys nx nu) (x xref : Vec nx) (uref : Vec nu) :
    Fin nu → Fin nx → ℚ :=
  jacobian (sys.ugrad x xref uref)

/- `ControlAffineSystem.f_func` (per sample, noise disabled):
`f = a(x) + b(x) @ u(x, xref, uref)`. -/
def f_func (sys : CASys nx nu) (x xref : Vec nx) (uref : Vec nu) : Vec nx :=
  fun m => sys.a x m + finSum nu (fun k => sys.b x m k * u_func sys x xref uref k)

/- `ControlAffineSystem.fref_func`: open-loop reference dynamics
`a(xref) + b(xref) @ uref`. -/
def fref_func (sys : CASys nx nu) (xref : Vec nx) (uref : Vec nu) : Vec nx :=
  fun m => sys.a xref m + finSum nu (fun k => sys.b xref m k * uref k)

/- Column `i` of the tensor `dbdx_u` built by the loop in
`ControlAffineSystem.dfdx_func`: `dbdx_u[:, :, [i]] = bmm(dbdx[:, :, :, i], u)`. -/
def dbdx_u (sys : CASys nx nu) (x : Vec nx) (uctl : Vec nu) :
    Fin nx → Fin nx → ℚ :=
  fun m i => finSum nu (fun k => sys.dbdx x m k i * uctl k)

/- `ControlAffineSystem.dfdx_func` for one batch element:
`dfdx = dadx_func(x) + dbdx_u + bmm(b_func(x), dudx_func(x, xref, uref))`. -/
def dfdx_sample (sys : CASys nx nu) (x xref : Vec nx) (uref : Vec nu) :
    Fin nx → Fin nx → ℚ :=
  fun m i =>
    sys.dadx x m i + dbdx_u sys x (sys.u x xref uref) m i +
      finSum nu (fun k => sys.b x m k * dudx_func sys x xref uref k i)

/- `ControlAffineSystem.dfdx_func`: the batch is a list of states, the
reference state/input being shared across the batch (the docstring of
`cut_xref_traj` records that references are constant along the batch dim). -/
def dfdx_func (sys : CASys nx nu) (xs : List (Vec nx)) (xref : Vec nx)
    (uref : Vec nu) : List (Fin nx → Fin nx → ℚ) :=
  xs.map (fun x => dfdx_sample sys x xref uref)

/- Trace of a square matrix, as in `diagonal(...).sum(-1)`. -/
def traceM {n : ℕ} (M : Fin n → Fin n → ℚ) : ℚ := finSum n (fun i => M i i)

/- `ControlAffineSystem.divf_func`: per-sample trace of the closed-loop
Jacobian (one scalar per batch element). -/
def divf_func (sys : CASys nx nu) (xs : List (Vec nx)) (xref : Vec nx)
    (uref : Vec nu) : List ℚ :=
  (dfdx_func sys xs xref uref).map traceM

/- Per-sample divergence, used by the density update rules. -/
def divf_sample (sys : CASys nx nu) (x xref : Vec nx) (uref : Vec nu) : ℚ :=
  traceM (dfdx_sample sys x xref uref)

/- The closed-loop Jacobian as the specification writes it:
`df/dx = da/dx + sum_i (db/dx)_i u_i + b (du/dx)`. -/
def dfdx_spec (sys : CASys nx nu) (x xref : Vec nx) (uref : Vec nu) :
    Fin nx → Fin nx → ℚ :=
  fun m i =>
    sys.dadx x m i + finSum nu (fun k => sys.u x xref uref k * sys.dbdx x m k i) +
      finSum nu (fun k => sys.b x m k * sys.ugrad x xref uref k i)

/- IEEE-style scalar values: finite rationals plus `inf`, `-inf`, `nan`.
Only the behaviour the density pipeline relies on is modelled (addition,
scalar multiplication, negation, `log`, comparisons, `clamp`, `isnan`). -/
inductive FVal where
  | fin : ℚ → FVal
  | inf : FVal
  | ninf : FVal
  | nan : FVal
deriving DecidableEq

namespace FVal

/- IEEE addition on `FVal`. -/
def fadd : FVal → FVal → FVal
  | nan, _ => nan
  | _, nan => nan
  | inf, ninf => nan
  | ninf, inf => nan
  | inf, _ => inf
  | _, inf => inf
  | ninf, _ => ninf
  | _, ninf => ninf
  | fin p, fin q => fin (p + q)

/- IEEE multiplication of a finite scalar with an `FVal`
(note `0 * inf = nan`). -/
def fmulQ (q : ℚ) : FVal → FVal
  | nan => nan
  | fin r => fin (q * r)
  | inf => if 0 < q then inf else if q < 0 then ninf else nan
  | ninf => if 0 < q then ninf else if q < 0 then inf else nan

def fneg : FVal → FVal
  | nan => nan
  | inf => ninf
  | ninf => inf
  | fin q => fin (-q)

/- `torch.log` on an exactly represented (rational) argument: negative gives
`nan`, zero gives `-inf`, a positive argument gives the value tabulated by
`plog` (an arbitrary but fixed table standing for the machine logarithm). -/
def flogQ (plog : ℚ → ℚ) (q : ℚ) : FVal :=
  if q < 0 then nan else if q = 0 then ninf else fin (plog q)

/- `v > c` for a rational threshold `c` (IEEE: comparisons with `nan` are
false). -/
def fgtQ : FVal → ℚ → Bool
  | fin q, c => decide (c < q)
  | inf, _ => true
  | ninf, _ => false
  | nan, _ => false

/- `v < c` for a rational threshold `c`. -/
def fltQ : FVal → ℚ → Bool
  | fin q, c => decide (q < c)
  | inf, _ => false
  | ninf, _ => true
  | nan, _ => false

def isNanB : FVal → Bool
  | nan => true
  | _ => false

/- `torch.clamp(x, min=lo, max=hi)` (propagates `nan`). -/
def fclamp (lo hi : ℚ) : FVal → FVal
  | nan => nan
  | inf => fin hi
  | ninf => fin lo
  | fin q => fin (min (max q lo) hi)

/- `torch.clamp(x, max=hi)` (propagates `nan`). -/
def fclampMax (hi : ℚ) : FVal → FVal
  | nan => nan
  | inf => fin hi
  | ninf => ninf
  | fin q => fin (min q hi)

end FVal

/- `ControlAffineSystem.get_next_x` (per sample). -/
def get_next_x (sys : CASys nx nu) (x xref : Vec nx) (uref : Vec nu) (dt : ℚ) :
    Vec nx :=
  fun m => x m + f_func sys x xref uref m * dt

/- `ControlAffineSystem.get_next_xref`. -/
def get_next_xref (sys : CASys nx nu) (xref : Vec nx) (uref : Vec nu) (dt : ℚ) :
    Vec nx :=
  fun m => xref m + fref_func sys xref uref m * dt

/- `ControlAffineSystem.get_next_rho` (per sample): `rho + (-divf * rho) * dt`. -/
def get_next_rho (sys : CASys nx nu) (x xref : Vec nx) (uref : Vec nu)
    (rho : FVal) (dt : ℚ) : FVal :=
  let divf := divf_sample sys x xref uref
  let drhodt := FVal.fmulQ (-divf) rho
  FVal.fadd rho (FVal.fmulQ dt drhodt)

/- `ControlAffineSystem.get_next_rholog` (per sample):
`rholog + log(1 - divf * dt)`. -/
def get_next_rholog (sys : CASys nx nu) (plog : ℚ → ℚ) (x xref : Vec nx)
    (uref : Vec nu) (rholog : FVal) (dt : ℚ) : FVal :=
  let divf := divf_sample sys x xref uref
  FVal.fadd rholog (FVal.flogQ plog (1 - divf * dt))

/- The state rollout of `compute_density` for one sample:
`x_traj[:, :, [i + 1]] = get_next_x(x_traj[:, :, [i]], xref_traj[:, :, [i]], uref_traj[:, :, [i]], dt)`. -/
def xRoll (sys : CASys nx nu) (xref : ℕ → Vec nx) (uref : ℕ → Vec nu)
    (dt : ℚ) (x0 : Vec nx) : ℕ → Vec nx
  | 0 => x0
  | i + 1 => get_next_x sys (xRoll sys xref uref dt x0 i) (xref i) (uref i) dt

/- The density rollout of `compute_density` for one sample, in linear or
log mode depending on `logd`. -/
def rhoRoll (sys : CASys nx nu) (plog : ℚ → ℚ) (logd : Bool)
    (xref : ℕ → Vec nx) (uref : ℕ → Vec nu) (dt : ℚ) (x0 : Vec nx)
    (rho0 : FVal) : ℕ → FVal
  | 0 => rho0
  | i + 1 =>
    let xi := xRoll sys xref uref dt x0 i
    let ri := rhoRoll sys plog logd xref uref dt x0 rho0 i
    if logd then get_next_rholog sys plog xi (xref i) (uref i) ri dt
    else get_next_rho sys xi (xref i) (uref i) ri dt

/- The overflow bound `1e30` used by the clamping stage. -/
def big : ℚ := 10 ^ 30

/- `torch.any(p)` over a batch-by-time tensor of `FVal`s. -/
def anyE (p : FVal → Bool) (T : List (List FVal)) : Bool :=
  T.any (fun row => row.any p)

/- The final `nan` replacement of `compute_density`:
`rho_traj[rho_traj.isnan()] = 1e30`, guarded by `torch.any(rho_traj.isnan())`. -/
def nanReplace (T : List (List FVal)) : List (List FVal) :=
  if anyE FVal.isNanB T then
    T.map (List.map (fun v => if FVal.isNanB v then FVal.fin big else v))
  else T

/- The clamping stage at the end of `compute_density` (the `cutting` branch):
in log mode clamp to `max=1e30` when any entry exceeds it, otherwise clamp to
`[0, 1e30]` when any entry is above `1e30` or below `0`; afterwards replace
every `nan` entry by `1e30` when any entry is `nan`. -/
def clampStage (logd : Bool) (T : List (List FVal)) : List (List FVal) :=
  nanReplace
    (if logd then
      if anyE (fun v => FVal.fgtQ v big) T then
        T.map (List.map (FVal.fclampMax big))
      else T
    else
      if anyE (fun v => FVal.fgtQ v big) T || anyE (fun v => FVal.fltQ v 0) T then
        T.map (List.map (FVal.fclamp 0 big))
      else T)

/- `ControlAffineSystem.compute_density`.  `xref`/`uref` are the shared
reference trajectories (time-indexed), `N = uref_traj.shape[2]` the number of
integration steps, `rho0s` the optional initial densities.  Returns the error
state trajectories `x_traj - xref_traj` and (when `compDensity`) the density
trajectories, clamped by `clampStage` when `cutting`. -/
def compute_density (sys : CASys nx nu) (plog : ℚ → ℚ)
    (xe0s : List (Vec nx)) (xref : ℕ → Vec nx) (uref : ℕ → Vec nu) (N : ℕ)
    (dt : ℚ) (rho0s : Option (List FVal)) (cutting compDensity logd : Bool) :
    List (List (Vec nx)) × Option (List (List FVal)) :=
  let x0s : List (Vec nx) := xe0s.map (fun xe0 => fun m => xe0 m + xref 0 m)
  let xeOut : List (List (Vec nx)) :=
    x0s.map (fun x0 =>
      (List.range (N + 1)).map (fun i => fun m =>
        xRoll sys xref uref dt x0 i m - xref i m))
  if compDensity then
    let rho0d : FVal := if logd then FVal.fin 0 else FVal.fin 1
    let rho0l : List FVal := rho0s.getD (x0s.map (fun _ => rho0d))
    let rhoT : List (List FVal) :=
      (x0s.zip rho0l).map (fun p =>
        (List.range (N + 1)).map
          (fun i => rhoRoll sys plog logd xref uref dt p.1 p.2 i))
    (xeOut, some (if cutting then clampStage logd rhoT else rhoT))
  else
    (xeOut, none)

/- Entrywise effect of `clampStage`: `nan` becomes `1e30`; values above `1e30`
become `1e30`; in non-log mode negative values become `0`; everything else is
unchanged. -/
def entryClamp (logd : Bool) (v : FVal) : FVal :=
  if FVal.isNanB v then FVal.fin big
  else if FVal.fgtQ v big then FVal.fin big
  else if !logd && FVal.fltQ v 0 then FVal.fin 0
  else v

/- Python list slicing `l[:k]` for a possibly negative bound `k`
(`l[:-m]` drops the last `m` elements). -/
def pySlice {α : Type} (l : List α) (k : ℤ) : List α :=
  if 0 ≤ k then l.take k.toNat else l.take (l.length - (-k).toNat)

/- Python stride slicing `l[::f]`. -/
def pyStrideEvery {α : Type} (l : List α) (f : ℕ) : List α :=
  (List.range l.length).filterMap (fun i => if i % f = 0 then l[i]? else none)

/- `ControlAffineSystem.cut_xref_traj`: for each state dimension record the
first index where the reference exceeds `X_MAX` (resp. falls below `X_MIN`),
defaulting to the trajectory length; cut `xref` at the minimum of all these
indices (`N_sim_cut`) and `uref` at `N_sim_cut - 1` (a Python slice, so `-1`
when `N_sim_cut = 0`). -/
def cut_xref_traj (sys : CASys nx nu) (xref_traj : List (Vec nx))
    (uref_traj : List (Vec nu)) : List (Vec nx) × List (Vec nu) :=
  let L := xref_traj.length
  let lim : Fin nx → ℕ := fun j =>
    min (xref_traj.findIdx (fun v => decide (sys.X_MAX j < v j)))
      (xref_traj.findIdx (fun v => decide (v j < sys.X_MIN j)))
  let N_sim_cut := ((List.finRange nx).map lim).foldr min L
  (xref_traj.take N_sim_cut, pySlice uref_traj ((N_sim_cut : ℤ) - 1))

/- The configuration fields of `args` consumed by the reference sampler. -/
structure Args where
  N_sim : ℕ
  N_sim_max : ℕ
  dt_sim : ℚ
  input_type : String
  factor_pred : ℕ

/- The ambient randomness and transcendental-function oracles: `randn`/`rand`
streams stand for `torch.randn`/`torch.rand` draws (one independent stream
per call site), `sinQ`/`cosQ`/`piQ` for the machine `sin`/`cos`/`np.pi`. -/
structure Env where
  randn : ℕ → ℚ
  rand : ℕ → ℚ
  rand2 : ℕ → ℚ
  sinQ : ℚ → ℚ
  cosQ : ℚ → ℚ
  piQ : ℚ

/- Errors raised by `sample_uref_traj`: an explicit
`raise NotImplementedError`, or a Python `UnboundLocalError`/`NameError`
from a branch variable (`N_u`, `num_sins`, `number`, `uref_traj`) that was
never assigned. -/
inductive SErr where
  | notImplemented : SErr
  | unboundLocal : SErr
deriving DecidableEq

/- The per-branch shapes of the input-parameter tensors returned by
`sample_uref_traj`. -/
inductive UParams (nu : ℕ) where
  | discrP (p : Fin nu → ℕ → ℚ)
  | polynP (p : Fin 4 → Fin nu → ℚ)
  | sinsP (p : Fin nu → ℕ → ℚ)
  | sincosP (p : Fin nu → ℕ → ℚ)
  | sin1P (p : Fin 4 → Fin nu → ℚ)
  | custP (p : ℕ → Fin 3 → Fin nu → ℚ)

/- `torch.clamp(x, lo, hi)` on exact scalars. -/
def qclamp (lo hi x : ℚ) : ℚ := min (max x lo) hi

/- `pat` is a leading segment of `s`. -/
def leadsWith : List Char → List Char → Bool
  | [], _ => true
  | _ :: _, [] => false
  | p :: ps, c :: cs => p == c && leadsWith ps cs

/- Python substring containment `pat in s`. -/
def hasSegment (pat : List Char) : List Char → Bool
  | [] => leadsWith pat []
  | c :: cs => leadsWith pat (c :: cs) || hasSegment pat cs

/- `ControlAffineSystem.sample_uref_traj`.  The `u_params` argument is
modelled for the `discr` parameterizations (the only branches that accept a
caller-supplied `u_params`; every other branch raises `NotImplementedError`
when it is not `None`, without reading its contents).  Each branch mirrors
the source: the dispatch is on substring containment for `discr`/`sincos`/
`cust` and on equality otherwise; unknown variants inside a family fail where
the never-assigned local (`N_u`, `num_sins`, `number`) is first read, and a
completely unknown tag falls through to the `return`, where `uref_traj` is
unbound. -/
def sample_uref_traj (sys : CASys nx nu) (args : Args)
    (u_params : Option (Fin nu → ℕ → ℚ)) (env : Env) :
    Except SErr (List (Vec nu) × UParams nu) :=
  if hasSegment "discr".toList args.input_type.toList then
    match (if args.input_type = "discr10" then some 10
      else if args.input_type = "discr5" then some 5 else none : Option ℕ) with
    | none => .error .unboundLocal
    | some N_u =>
      let length_u := args.N_sim_max / N_u
      let uPv : Fin nu → ℕ → ℚ :=
        match u_params with
        | none => fun j k =>
            qclamp (sys.UREF_MIN j) (sys.UREF_MAX j) (2 * env.randn (j.val * N_u + k))
        | some p => p
      let uref : List (Vec nu) :=
        (List.range (N_u * length_u)).map (fun t j => uPv j (t / length_u))
      .ok (pySlice uref ((args.N_sim : ℤ) - 1), .discrP uPv)
  else if args.input_type = "polyn3" then
    match u_params with
    | some _ => .error .notImplemented
    | none =>
      let p : Fin 4 → Fin nu → ℚ := fun i j =>
        (sys.UPOLYN_MAX - sys.UPOLYN_MIN) * env.rand (i.val * nu + j.val) +
          sys.UPOLYN_MIN
      let uref : List (Vec nu) :=
        (List.range args.N_sim).map (fun (t : ℕ) j =>
          qclamp (sys.UREF_MIN j) (sys.UREF_MAX j)
            (p 0 j + p 1 j * ((t : ℚ) * args.dt_sim) +
              p 2 j * ((t : ℚ) * args.dt_sim) ^ 2 +
              p 3 j * ((t : ℚ) * args.dt_sim) ^ 3))
      .ok (pySlice uref ((args.N_sim : ℤ) - 1), .polynP p)
  else if args.input_type = "sins5" then
    match u_params with
    | some _ => .error .notImplemented
    | none =>
      let T_end := args.dt_sim * ((args.N_sim_max - 1 : ℕ) : ℚ)
      let p : Fin nu → ℕ → ℚ := fun j i =>
        (sys.UREF_MAX j - sys.UREF_MIN j) * env.rand (j.val * 5 + i) + sys.UREF_MIN j
      let uref : List (Vec nu) :=
        (List.range args.N_sim).map (fun (t : ℕ) j =>
          qclamp (sys.UREF_MIN j) (sys.UREF_MAX j)
            (finSum 5 (fun i => p j i.val *
              env.sinQ (((i.val + 1 : ℕ) : ℚ) * ((t : ℚ) * args.dt_sim) / T_end * 2 *
                env.piQ))))
      .ok (pySlice uref ((args.N_sim : ℤ) - 1), .sinsP p)
  else if hasSegment "sincos".toList args.input_type.toList then
    match (if args.input_type = "sincos5" then some 5
      else if args.input_type = "sincos3" then some 3
      else if args.input_type = "sincos2" then some 2 else none : Option ℕ) with
    | none =>
      match u_params with
      | some _ => .error .notImplemented
      | none => .error .unboundLocal
    | some num_sins =>
      match u_params with
      | some _ => .error .notImplemented
      | none =>
        let T_end := args.dt_sim * ((args.N_sim_max - 1 : ℕ) : ℚ)
        let p : Fin nu → ℕ → ℚ := fun j i =>
          (sys.UREF_MAX j - sys.UREF_MIN j) * env.rand (j.val * (2 * num_sins) + i) +
            sys.UREF_MIN j
        let raw : ℕ → Vec nu := fun t j =>
          finSum num_sins (fun i => p j i.val *
            env.sinQ (((i.val + 1 : ℕ) : ℚ) * (t * args.dt_sim) / T_end * 2 * env.piQ)) +
          finSum num_sins (fun i => p j (i.val + num_sins) *
            env.cosQ (((i.val + 1 : ℕ) : ℚ) * (t * args.dt_sim) / T_end * 2 * env.piQ))
        let uref : List (Vec nu) :=
          (List.range args.N_sim).map (fun t j =>
            qclamp (sys.UREF_MIN j) (sys.UREF_MAX j) ((1 / 2) * (raw t j - raw 0 j)))
        .ok (pySlice uref ((args.N_sim : ℤ) - 1), .sincosP p)
  else if args.input_type = "sin1" then
    match u_params with
    | some _ => .error .notImplemented
    | none =>
      let p : Fin 4 → Fin nu → ℚ := fun i j => env.rand (i.val * nu + j.val)
      let start : Fin nu → ℕ := fun j => (round ((args.N_sim_max : ℚ) * p 0 j)).toNat
      let len : Fin nu → ℕ := fun j =>
        (round (((args.N_sim_max : ℚ) - (start j : ℕ)) * p 1 j)).toNat
      let ampl : Fin nu → ℚ := fun j => (2 * p 2 j - 1) * sys.USIN_AMPL
      let wide : Fin nu → ℚ := fun j => p 3 j * sys.USIN_WIDE
      let uref : List (Vec nu) :=
        (List.range args.N_sim).map (fun t j =>
          qclamp (sys.UREF_MIN j) (sys.UREF_MAX j)
            (if start j ≤ t ∧ t < start j + len j then
              ampl j * env.sinQ (wide j * (((t - start j : ℕ) : ℚ) * args.dt_sim))
            else 0))
      .ok (pySlice uref ((args.N_sim : ℤ) - 1), .sin1P p)
  else if hasSegment "cust".toList args.input_type.toList then
    match (if args.input_type = "cust1" then some 1
      else if args.input_type = "cust2" then some 2
      else if args.input_type = "cust3" then some 3
      else if args.input_type = "cust4" then some 4 else none : Option ℕ) with
    | none =>
      match u_params with
      | some _ => .error .notImplemented
      | none => .error .unboundLocal
    | some number =>
      match u_params with
      | some _ => .error .notImplemented
      | none =>
        let p : ℕ → Fin 3 → Fin nu → ℚ := fun i c j =>
          env.rand ((i * 3 + c.val) * nu + j.val)
        let start : ℕ → Fin nu → ℕ := fun i j =>
          (round ((args.N_sim_max : ℚ) * p i 0 j)).toNat
        let len : ℕ → Fin nu → ℕ := fun i j =>
          (round (((args.N_sim_max : ℚ) - (start i j : ℕ)) * p i 1 j)).toNat
        let ampl : ℕ → Fin nu → ℚ := fun i j =>
          (sys.UREF_MAX j - sys.UREF_MIN j) * p i 2 j + sys.UREF_MIN j
        let paint : (ℕ → Vec nu) → ℕ → (ℕ → Vec nu) := fun cur i t j =>
          if start i j ≤ t ∧ t < start i j + len i j then ampl i j else cur t j
        let filled := (List.range number).foldl paint (fun _ _ => 0)
        let uref : List (Vec nu) := (List.range args.N_sim).map (fun t j => filled t j)
        .ok (pySlice uref ((args.N_sim : ℤ) - 1), .custP p)
  else .error .unboundLocal

/- The reference rollout of `compute_xref_traj`:
`xref_traj[:, :, [i + 1]] = get_next_xref(xref_traj[:, :, [i]], uref_traj[:, :, [i]], dt)`. -/
def xrefRoll (sys : CASys nx nu) (dt : ℚ) (uref : ℕ → Vec nu) (xref0 : Vec nx) :
    ℕ → Vec nx
  | 0 => xref0
  | i + 1 => get_next_xref sys (xrefRoll sys dt uref xref0 i) (uref i) dt

/- `ControlAffineSystem.compute_xref_traj` (the source assumes
`uref_traj` has at least `N_sim - 1` entries and ignores any extras). -/
def compute_xref_traj (sys : CASys nx nu) (xref0 : Vec nx)
    (uref_traj : List (Vec nu)) (args : Args) : List (Vec nx) :=
  (List.range args.N_sim).map
    (fun i => xrefRoll sys args.dt_sim (fun t => uref_traj.getD t (fun _ => 0)) xref0 i)

/- `ControlAffineSystem.sample_xref0`:
`(XREF0_MAX - XREF0_MIN) * rand + XREF0_MIN`. -/
def sample_xref0 (sys : CASys nx nu) (env : Env) : Vec nx :=
  fun j => (sys.XREF0_MAX j - sys.XREF0_MIN j) * env.rand2 j.val + sys.XREF0_MIN j

/- `ControlAffineSystem.u_params2ref_traj`. -/
def u_params2ref_traj (sys : CASys nx nu) (xref0 : Vec nx)
    (u_params : Fin nu → ℕ → ℚ) (args : Args) (env : Env) (short : Bool) :
    Except SErr (List (Vec nu) × List (Vec nx)) :=
  match sample_uref_traj sys args (some u_params) env with
  | .error e => .error e
  | .ok (uref_traj, _) =>
    let xref_traj := compute_xref_traj sys xref0 uref_traj args
    if short then
      .ok (pyStrideEvery uref_traj args.factor_pred,
        pyStrideEvery xref_traj args.factor_pred)
    else .ok (uref_traj, xref_traj)

/- One iteration of the body of the `while True` loop in
`ControlAffineSystem.get_valid_ref`: `some` when the cut trajectory passes
the `0.8 * N_sim` acceptance threshold, `none` when the loop must resample. -/
def gvr_body (sys : CASys nx nu) (args : Args) (env : Env) :
    Except SErr (Option (UParams nu × List (Vec nu) × List (Vec nx))) :=
  match sample_uref_traj sys args none env with
  | .error e => .error e
  | .ok (uref_traj, u_params) =>
    let xref0 := sample_xref0 sys env
    let xref_traj := compute_xref_traj sys xref0 uref_traj args
    let c := cut_xref_traj sys xref_traj uref_traj
    if (8 / 10 : ℚ) * (args.N_sim : ℚ) < (c.1.length : ℚ) then
      .ok (some (u_params, c.2, c.1))
    else .ok none

/- `ControlAffineSystem.get_valid_ref`, with an explicit fuel bound on the
number of iterations of its `while True` loop (the source has no such bound)
and one fresh draw environment per iteration; `none` means the fuel ran out
with the loop still running. -/
def get_valid_ref (sys : CASys nx nu) (args : Args) (envs : ℕ → Env) :
    ℕ → ℕ → Option (Except SErr (UParams nu × List (Vec nu) × List (Vec nx)))
  | _, 0 => none
  | k, fuel + 1 =>
    match gvr_body sys args (envs k) with
    | .error e => some (.error e)
    | .ok (some r) => some (.ok r)
    | .ok none => get_valid_ref sys args envs (k + 1) fuel

/- `get_valid_ref` never returns within any fuel bound: the `while True`
loop runs forever. -/
def gvr_diverges (sys : CASys nx nu) (args : Args) (envs : ℕ → Env) : Prop :=
  ∀ fuel : ℕ, get_valid_ref sys args envs 0 fuel = none

/- `ControlAffineSystem.sample_x0` (random branch): the error box is shrunk
to `[max(X_MIN - xref0, XE0_MIN), min(X_MAX - xref0, XE0_MAX)]` and the
samples are returned shifted by `xref0`. -/
def sample_x0_rand (sys : CASys nx nu) (xref0 : Vec nx) (sample_size : ℕ)
    (env : Env) : List (Vec nx) :=
  let xe0_max : Vec nx := fun j => min (sys.X_MAX j - xref0 j) (sys.XE0_MAX j)
  let xe0_min : Vec nx := fun j => max (sys.X_MIN j - xref0 j) (sys.XE0_MIN j)
  (List.range sample_size).map (fun s j =>
    env.rand (s * nx + j.val) * (xe0_max j - xe0_min j) + xe0_min j + xref0 j)

/- `torch.linspace(a, b, n)`: `n` evenly spaced points from `a` to `b`
inclusive (`[a]` for `n = 1`). -/
def linspace (a b : ℚ) (n : ℕ) : List ℚ :=
  if n ≤ 1 then List.replicate n a
  else (List.range n).map (fun k : ℕ => a + (k : ℚ) * (b - a) / ((n : ℚ) - 1))

/- Row-major Cartesian product of per-dimension value lists, as produced by
`torch.meshgrid(..., indexing='ij')` followed by flattening and stacking. -/
def cartProd : List (List ℚ) → List (List ℚ)
  | [] => [[]]
  | l :: rest => l.flatMap (fun v => (cartProd rest).map (fun pt => v :: pt))

/- `systems.utils.get_mesh_pos`: the mesh over `[x_min, x_max]` with `N i`
linspace points on dimension `i` (defaults `x_min = 0`, `x_max = 1` at the
call sites modelled here). -/
def get_mesh_pos (N : List ℕ) (x_min x_max : ℕ → ℚ) : List (List ℚ) :=
  cartProd ((List.range N.length).map (fun i => linspace (x_min i) (x_max i) (N.getD i 0)))

/- `ControlAffineSystem.sample_x0` (deterministic mesh branch). -/
def sample_x0_mesh (sys : CASys nx nu) (xref0 : Vec nx) (N : List ℕ) :
    List (Vec nx) :=
  let xe0_max : Vec nx := fun j => min (sys.X_MAX j - xref0 j) (sys.XE0_MAX j)
  let xe0_min : Vec nx := fun j => max (sys.X_MIN j - xref0 j) (sys.XE0_MIN j)
  (get_mesh_pos N (fun _ => 0) (fun _ => 1)).map (fun pt j =>
    pt.getD j.val 0 * (xe0_max j - xe0_min j) + xe0_min j + xref0 j)

/- The enumerated set of parameterization tags for which `sample_uref_traj`
can return a trajectory. -/
def supportedInputTypes : List String :=
  ["discr10", "discr5", "polyn3", "sins5", "sincos5", "sincos3", "sincos2",
    "sin1", "cust1", "cust2", "cust3", "cust4"]

/- A concrete draw environment whose `rand` stream is constantly `1/2`. -/
def envC : Env where
  randn := fun _ => 0
  rand := fun _ => 1 / 2
  rand2 := fun _ => 0
  sinQ := fun _ => 0
  cosQ := fun _ => 0
  piQ := 0

/- A second concrete draw environment with different streams, to exhibit
independence from the draws. -/
def envD : Env where
  randn := fun _ => 7
  rand := fun _ => 1 / 3
  rand2 := fun _ => 2 / 3
  sinQ := fun _ => 1
  cosQ := fun _ => 1
  piQ := 3

/- Concrete configurations for the sampler. -/
def argsD : Args where
  N_sim := 3
  N_sim_max := 10
  dt_sim := 1 / 100
  input_type := "discr10"
  factor_pred := 1

def argsP : Args where
  N_sim := 3
  N_sim_max := 10
  dt_sim := 1 / 100
  input_type := "polyn3"
  factor_pred := 1

def argsU : Args where
  N_sim := 3
  N_sim_max := 10
  dt_sim := 1 / 100
  input_type := "fourier7"
  factor_pred := 1

/- A constant-zero `u_params` table for the `discr` parameterizations. -/
def uPC : Fin 1 → ℕ → ℚ := fun _ _ => 0

/- A trivial one-dimensional system (zero drift, zero input matrix, zero
controller) used to exercise the pipeline on concrete inputs. -/
def sysZ : CASys 1 1 where
  a := fun _ _ => 0
  dadx := fun _ _ _ => 0
  b := fun _ _ _ => 0
  dbdx := fun _ _ _ _ => 0
  u := fun _ _ _ _ => 0
  ugrad := fun _ _ _ _ _ => 0
  X_MIN := fun _ => -5
  X_MAX := fun _ => 5
  XREF0_MIN := fun _ => -1
  XREF0_MAX := fun _ => 1
  XE0_MIN := fun _ => -1
  XE0_MAX := fun _ => 1
  UREF_MIN := fun _ => -3
  UREF_MAX := fun _ => 3
  UPOLYN_MIN := -1
  UPOLYN_MAX := 1
  USIN_AMPL := 1
  USIN_WIDE := 1

/- A concrete log table for `torch.log` on positive arguments (its values are
never relevant to the statements that use it). -/
def plogZ : ℚ → ℚ := fun _ => 0

def zeroV : Vec 1 := fun _ => 0

def zeroV2 : Vec 2 := fun _ => 0

/- A pure rotation in the plane: `a(x) = (x_1, -x_0)`, no input matrix, zero
controller; its closed-loop divergence vanishes identically. -/
def rotSys : CASys 2 1 where
  a := fun x i => if i.val = 0 then x 1 else -(x 0)
  dadx := fun _ m i =>
    if m.val = 0 ∧ i.val = 1 then 1 else if m.val = 1 ∧ i.val = 0 then -1 else 0
  b := fun _ _ _ => 0
  dbdx := fun _ _ _ _ => 0
  u := fun _ _ _ _ => 0
  ugrad := fun _ _ _ _ _ => 0
  X_MIN := fun _ => -5
  X_MAX := fun _ => 5
  XREF0_MIN := fun _ => -1
  XREF0_MAX := fun _ => 1
  XE0_MIN := fun _ => -1
  XE0_MAX := fun _ => 1
  UREF_MIN := fun _ => -3
  UREF_MAX := fun _ => 3
  UPOLYN_MIN := -1
  UPOLYN_MAX := 1
  USIN_AMPL := 1
  USIN_WIDE := 1

/- A one-dimensional system with constant closed-loop divergence `200`
(`a(x) = 200 x`), so that with `dt = 1/100` the log-density update hits the
singularity `div(f)·dt = 2 ≥ 1` at every step. -/
def sysD : CASys 1 1 where
  a := fun x _ => 200 * x 0
  dadx := fun _ _ _ => 200
  b := fun _ _ _ => 0
  dbdx := fun _ _ _ _ => 0
  u := fun _ _ _ _ => 0
  ugrad := fun _ _ _ _ _ => 0
  X_MIN := fun _ => -5
  X_MAX := fun _ => 5
  XREF0_MIN := fun _ => -1
  XREF0_MAX := fun _ => 1
  XE0_MIN := fun _ => -1
  XE0_MAX := fun _ => 1
  UREF_MIN := fun _ => -3
  UREF_MAX := fun _ => 3
  UPOLYN_MIN := -1
  UPOLYN_MAX := 1
  USIN_AMPL := 1
  USIN_WIDE := 1

/- A system whose initial-reference box is the single point `10`, outside the
admissible state box `[-5, 5]`: every sampled reference trajectory violates
the bounds at its very first index, whatever the random draws. -/
def sysLoop : CASys 1 1 where
  a := fun _ _ => 0
  dadx := fun _ _ _ => 0
  b := fun _ _ _ => 0
  dbdx := fun _ _ _ _ => 0
  u := fun _ _ _ _ => 0
  ugrad := fun _ _ _ _ _ => 0
  X_MIN := fun _ => -5
  X_MAX := fun _ => 5
  XREF0_MIN := fun _ => 10
  XREF0_MAX := fun _ => 10
  XE0_MIN := fun _ => -1
  XE0_MAX := fun _ => 1
  UREF_MIN := fun _ => -3
  UREF_MAX := fun _ => 3
  UPOLYN_MIN := -1
  UPOLYN_MAX := 1
  USIN_AMPL := 1
  USIN_WIDE := 1

lemma big_nonneg : (0 : ℚ) ≤ big := by
  unfold big
  positivity

lemma nanRepl_fclampMax (v : FVal) :
    (if FVal.isNanB (FVal.fclampMax big v) then FVal.fin big
      else FVal.fclampMax big v) = entryClamp true v := by
  cases v with
  | fin q =>
    by_cases h : big < q
    · simp [FVal.fclampMax, FVal.isNanB, entryClamp, FVal.fgtQ, h, min_eq_right (le_of_lt h)]
    · simp [FVal.fclampMax, FVal.isNanB, entryClamp, FVal.fgtQ, h, min_eq_left (le_of_not_lt h)]
  | inf => simp [FVal.fclampMax, FVal.isNanB, entryClamp, FVal.fgtQ]
  | ninf => simp [FVal.fclampMax, FVal.isNanB, entryClamp, FVal.fgtQ, FVal.fltQ]
  | nan => simp [FVal.fclampMax, FVal.isNanB, entryClamp]

lemma nanRepl_fclamp (v : FVal) :
    (if FVal.isNanB (FVal.fclamp 0 big v) then FVal.fin big
      else FVal.fclamp 0 big v) = entryClamp false v := by
  cases v with
  | fin q =>
    by_cases h : big < q
    · have h0 : (0 : ℚ) ≤ q := le_trans big_nonneg (le_of_lt h)
      simp [FVal.fclamp, FVal.isNanB, entryClamp, FVal.fgtQ, FVal.fltQ, h,
        max_eq_left h0, min_eq_right (le_of_lt h), not_lt.mpr h0]
    · by_cases h2 : q < 0
      · simp [FVal.fclamp, FVal.isNanB, entryClamp, FVal.fgtQ, FVal.fltQ, h, h2,
          max_eq_right (le_of_lt h2), min_eq_left big_nonneg]
      · simp [FVal.fclamp, FVal.isNanB, entryClamp, FVal.fgtQ, FVal.fltQ, h, h2,
          max_eq_left (le_of_not_lt h2), min_eq_left (le_of_not_lt h)]
  | inf => simp [FVal.fclamp, FVal.isNanB, entryClamp, FVal.fgtQ]
  | ninf => simp [FVal.fclamp, FVal.isNanB, entryClamp, FVal.fgtQ, FVal.fltQ]
  | nan => simp [FVal.fclamp, FVal.isNanB, entryClamp]

lemma anyE_false_mem {p : FVal → Bool} {T : List (List FVal)}
    (h : anyE p T = false) : ∀ row ∈ T, ∀ v ∈ row, p v = false := by
  intro row hrow v hv
  by_contra hne
  have hp : p v = true := by
    cases hpv : p v with
    | false => exact absurd hpv hne
    | true => rfl
  have : anyE p T = true := by
    unfold anyE
    rw [List.any_eq_true]
    exact ⟨row, hrow, by rw [List.any_eq_true]; exact ⟨v, hv, hp⟩⟩
  rw [h] at this
  exact Bool.false_ne_true this

lemma map_mem_id {α : Type} (l : List α) (f : α → α) (h : ∀ a ∈ l, f a = a) :
    l.map f = l := by
  induction l with
  | nil => rfl
  | cons a t ih =>
    rw [List.map_cons, h a (List.mem_cons_self a t),
      ih (fun b hb => h b (List.mem_cons_of_mem a hb))]

/- The trailing `nan` replacement acts entrywise, whatever its guard
evaluates to. -/
lemma nanReplace_eq (T : List (List FVal)) :
    nanReplace T =
      T.map (List.map (fun v => if FVal.isNanB v then FVal.fin big else v)) := by
  unfold nanReplace
  by_cases g : anyE FVal.isNanB T = true
  · simp only [g, if_true]
  · have gf := eq_false_of_ne_true g
    have hmem := anyE_false_mem gf
    simp only [gf, Bool.false_eq_true, if_false]
    refine ((map_mem_id T _ fun row hrow => ?_)).symm
    refine map_mem_id row _ fun v hv => ?_
    rw [hmem row hrow v hv]
    simp

/- The first (overflow) clamp of the log branch acts entrywise, whatever its
guard evaluates to. -/
lemma overflowClampLog_eq (T : List (List FVal)) :
    (if anyE (fun v => FVal.fgtQ v big) T then
        T.map (List.map (FVal.fclampMax big))
      else T) = T.map (List.map (FVal.fclampMax big)) := by
  by_cases g : anyE (fun v => FVal.fgtQ v big) T = true
  · simp only [g, if_true]
  · have gf := eq_false_of_ne_true g
    have hmem := anyE_false_mem gf
    simp only [gf, Bool.false_eq_true, if_false]
    refine ((map_mem_id T _ fun row hrow => ?_)).symm
    refine map_mem_id row _ fun v hv => ?_
    have h1 := hmem row hrow v hv
    cases v with
    | fin q =>
      simp only [FVal.fgtQ, decide_eq_false_iff_not, not_lt] at h1
      simp [FVal.fclampMax, min_eq_left h1]
    | inf => simp [FVal.fgtQ] at h1
    | ninf => simp [FVal.fclampMax]
    | nan => simp [FVal.fclampMax]

/- The first ([0, 1e30]) clamp of the non-log branch acts entrywise, whatever
its guard evaluates to. -/
lemma overflowClampLin_eq (T : List (List FVal)) :
    (if anyE (fun v => FVal.fgtQ v big) T || anyE (fun v => FVal.fltQ v 0) T then
        T.map (List.map (FVal.fclamp 0 big))
      else T) = T.map (List.map (FVal.fclamp 0 big)) := by
  by_cases g : (anyE (fun v => FVal.fgtQ v big) T || anyE (fun v => FVal.fltQ v 0) T) = true
  · simp only [g, if_true]
  · have gf := eq_false_of_ne_true g
    obtain ⟨ga, gb⟩ := Bool.or_eq_false_iff.mp gf
    have hgt := anyE_false_mem ga
    have hlt := anyE_false_mem gb
    simp only [gf, Bool.false_eq_true, if_false]
    refine ((map_mem_id T _ fun row hrow => ?_)).symm
    refine map_mem_id row _ fun v hv => ?_
    have h1 := hgt row hrow v hv
    have h2 := hlt row hrow v hv
    cases v with
    | fin q =>
      simp only [FVal.fgtQ, decide_eq_false_iff_not, not_lt] at h1
      simp only [FVal.fltQ, decide_eq_false_iff_not, not_lt] at h2
      simp [FVal.fclamp, max_eq_left h2, min_eq_left h1]
    | inf => simp [FVal.fgtQ] at h1
    | ninf => simp [FVal.fltQ] at h2
    | nan => simp [FVal.fclamp]

/- The clamping stage acts entrywise as `entryClamp`, whatever the guards
evaluate to. -/
lemma clampStage_eq (logd : Bool) (T : List (List FVal)) :
    clampStage logd T = T.map (List.map (entryClamp logd)) := by
  cases logd with
  | true =>
    unfold clampStage
    rw [if_pos rfl, overflowClampLog_eq, nanReplace_eq, List.map_map]
    refine List.map_congr_left fun row _ => ?_
    rw [Function.comp_apply, List.map_map]
    exact List.map_congr_left fun v _ => nanRepl_fclampMax v
  | false =>
    unfold clampStage
    rw [if_neg (by simp), overflowClampLin_eq, nanReplace_eq, List.map_map]
    refine List.map_congr_left fun row _ => ?_
    rw [Function.comp_apply, List.map_map]
    exact List.map_congr_left fun v _ => nanRepl_fclamp v

/- In non-log mode every entrywise clamp result is a finite value in
`[0, 1e30]`. -/
lemma entryClamp_false_range (v : FVal) :
    ∃ q : ℚ, entryClamp false v = FVal.fin q ∧ 0 ≤ q ∧ q ≤ big := by
  cases v with
  | fin q =>
    by_cases h1 : big < q
    · exact ⟨big, by simp [entryClamp, FVal.isNanB, FVal.fgtQ, h1], big_nonneg, le_refl _⟩
    · by_cases h2 : q < 0
      · exact ⟨0, by simp [entryClamp, FVal.isNanB, FVal.fgtQ, FVal.fltQ, h1, h2],
          le_refl _, big_nonneg⟩
      · exact ⟨q, by simp [entryClamp, FVal.isNanB, FVal.fgtQ, FVal.fltQ, h1, h2],
          le_of_not_lt h2, le_of_not_lt h1⟩
  | inf => exact ⟨big, by simp [entryClamp, FVal.isNanB, FVal.fgtQ], big_nonneg, le_refl _⟩
  | ninf => exact ⟨0, by simp [entryClamp, FVal.isNanB, FVal.fgtQ, FVal.fltQ], le_refl _, big_nonneg⟩
  | nan => exact ⟨big, by simp [entryClamp, FVal.isNanB], big_nonneg, le_refl _⟩

lemma entryClamp_not_nan (logd : Bool) (v : FVal) :
    FVal.isNanB (entryClamp logd v) = false := by
  cases v with
  | fin q =>
    unfold entryClamp
    split_ifs <;> simp [FVal.isNanB]
  | inf =>
    unfold entryClamp
    split_ifs <;> simp [FVal.isNanB]
  | ninf =>
    unfold entryClamp
    split_ifs <;> simp [FVal.isNanB]
  | nan => simp [entryClamp, FVal.isNanB]

lemma getD_map_range {α : Type} (f : ℕ → α) (n i : ℕ) (h : i < n) (d : α) :
    ((List.range n).map f).getD i d = f i := by
  rw [List.getD_eq_getElem?_getD, List.getElem?_map, List.getElem?_range h]
  rfl

lemma fadd_nan_right (v : FVal) : FVal.fadd v FVal.nan = FVal.nan := by
  cases v <;> rfl

lemma get_next_rho_nan (sys : CASys nx nu) (x xref : Vec nx) (uref : Vec nu)
    (dt : ℚ) : get_next_rho sys x xref uref FVal.nan dt = FVal.nan := rfl

lemma fadd_nan_left (v : FVal) : FVal.fadd FVal.nan v = FVal.nan := by
  cases v <;> rfl

lemma get_next_rholog_nan (sys : CASys nx nu) (plog : ℚ → ℚ) (x xref : Vec nx)
    (uref : Vec nu) (dt : ℚ) :
    get_next_rholog sys plog x xref uref FVal.nan dt = FVal.nan := by
  unfold get_next_rholog
  exact fadd_nan_left _

/- Once a density rollout value is `nan`, every later value is `nan`. -/
lemma rhoRoll_nan_of_le (sys : CASys nx nu) (plog : ℚ → ℚ) (logd : Bool)
    (xref : ℕ → Vec nx) (uref : ℕ → Vec nu) (dt : ℚ) (x0 : Vec nx)
    (rho0 : FVal) (k : ℕ)
    (hk : rhoRoll sys plog logd xref uref dt x0 rho0 k = FVal.nan) :
    ∀ i, k ≤ i → rhoRoll sys plog logd xref uref dt x0 rho0 i = FVal.nan := by
  intro i hi
  induction i with
  | zero =>
    have : k = 0 := Nat.le_zero.mp hi
    rw [← this]
    exact hk
  | succ n ih =>
    rcases Nat.lt_or_ge k (n + 1) with hlt | hge
    · have hn : rhoRoll sys plog logd xref uref dt x0 rho0 n = FVal.nan :=
        ih (Nat.lt_succ_iff.mp hlt)
      show rhoRoll sys plog logd xref uref dt x0 rho0 (n + 1) = FVal.nan
      rw [rhoRoll]
      simp only [hn]
      cases logd with
      | true => simp [get_next_rholog_nan]
      | false => simp [get_next_rho_nan]
    · have : k = n + 1 := Nat.le_antisymm hi hge
      rw [← this]
      exact hk

/- A singular log update (`1 - div(f)·dt < 0`) makes the next rollout value
`nan`. -/
lemma rhoRoll_singular (sys : CASys nx nu) (plog : ℚ → ℚ)
    (xref : ℕ → Vec nx) (uref : ℕ → Vec nu) (dt : ℚ) (x0 : Vec nx)
    (rho0 : FVal) (k : ℕ)
    (hsing : 1 - divf_sample sys (xRoll sys xref uref dt x0 k) (xref k) (uref k) * dt < 0) :
    rhoRoll sys plog true xref uref dt x0 rho0 (k + 1) = FVal.nan := by
  have h : FVal.flogQ plog
      (1 - divf_sample sys (xRoll sys xref uref dt x0 k) (xref k) (uref k) * dt) =
      FVal.nan := by
    unfold FVal.flogQ
    rw [if_pos hsing]
  rw [rhoRoll]
  simp only [if_true, get_next_rholog, h]
  exact fadd_nan_right _

/- The closed-loop divergence of the rotation system vanishes everywhere. -/
lemma divf_rotSys (x xref : Vec 2) (uref : Vec 1) :
    divf_sample rotSys x xref uref = 0 := by
  unfold divf_sample traceM dfdx_sample dbdx_u dudx_func jacobian
  simp [rotSys, finSum, Fin.last, Fin.castSucc, Fin.castAdd, Fin.castLE]

/- The closed-loop divergence of the constant-divergence system is `200`
everywhere. -/
lemma divf_sysD (x xref uref : Vec 1) :
    divf_sample sysD x xref uref = 200 := by
  unfold divf_sample traceM dfdx_sample dbdx_u dudx_func jacobian
  simp [sysD, finSum]

lemma foldr_min_le_mem {l : List ℕ} {base a : ℕ} (ha : a ∈ l) :
    l.foldr min base ≤ a := by
  induction l with
  | nil => cases ha
  | cons b t ih =>
    rcases List.mem_cons.mp ha with h | h
    · rw [h]
      exact min_le_left _ _
    · exact le_trans (min_le_right _ _) (ih h)

lemma foldr_min_le_base (l : List ℕ) (base : ℕ) : l.foldr min base ≤ base := by
  induction l with
  | nil => exact le_refl _
  | cons b t ih => exact le_trans (min_le_right _ _) ih

lemma le_foldr_min {l : List ℕ} {base c : ℕ} (hl : ∀ a ∈ l, c ≤ a)
    (hb : c ≤ base) : c ≤ l.foldr min base := by
  induction l with
  | nil => exact hb
  | cons b t ih =>
    exact le_min (hl b (List.mem_cons_self b t))
      (ih fun a ha => hl a (List.mem_cons_of_mem b ha))

lemma getD_eq_getElem {α : Type} (l : List α) (i : ℕ) (h : i < l.length)
    (d : α) : l.getD i d = l[i] := by
  rw [List.getD_eq_getElem?_getD, List.getElem?_eq_getElem h]
  rfl

lemma linspace_length (a b : ℚ) (n : ℕ) : (linspace a b n).length = n := by
  unfold linspace
  by_cases h : n ≤ 1
  · simp [h]
  · rw [if_neg h, List.length_map, List.length_range]

lemma linspace_ne_nil (a b : ℚ) {n : ℕ} (h : 1 ≤ n) : linspace a b n ≠ [] := by
  intro he
  have := linspace_length a b n
  rw [he] at this
  simp at this
  omega

lemma linspace_headD (a b : ℚ) {n : ℕ} (h : 1 ≤ n) :
    (linspace a b n).headD 0 = a := by
  unfold linspace
  by_cases h1 : n ≤ 1
  · have : n = 1 := le_antisymm h1 h
    simp [this]
  · have h2 : 2 ≤ n := by omega
    obtain ⟨m, rfl⟩ : ∃ m, n = m + 1 := ⟨n - 1, by omega⟩
    simp [h1, List.range_succ_eq_map]

lemma linspace_getLastD (a b : ℚ) {n : ℕ} (h : 2 ≤ n) :
    (linspace a b n).getLastD 0 = b := by
  unfold linspace
  have h1 : ¬ n ≤ 1 := by omega
  have hn0 : ¬ n = 0 := by omega
  have hne : ((n : ℚ) - 1) ≠ 0 := by
    have h2 : (1 : ℚ) < (n : ℚ) := by exact_mod_cast (by omega : 1 < n)
    intro he
    rw [sub_eq_zero] at he
    rw [he] at h2
    exact lt_irrefl _ h2
  rw [if_neg h1, List.getLastD_eq_getLast?, List.getLast?_map,
    List.getLast?_range, if_neg hn0]
  have hc : ((n - 1 : ℕ) : ℚ) = (n : ℚ) - 1 := by
    push_cast [Nat.cast_sub (by omega : 1 ≤ n)]
    ring
  simp only [Option.map_some', Option.getD_some]
  rw [hc]
  field_simp

lemma flatMap_const_length {α β : Type} (l : List α) (f : α → List β) (n : ℕ)
    (h : ∀ a, (f a).length = n) : (l.flatMap f).length = l.length * n := by
  induction l with
  | nil => simp
  | cons a t ih =>
    rw [List.flatMap_cons, List.length_append, ih, h a, List.length_cons]
    ring

lemma cartProd_length (ls : List (List ℚ)) :
    (cartProd ls).length = (ls.map List.length).prod := by
  induction ls with
  | nil => rfl
  | cons l rest ih =>
    show (l.flatMap fun v => (cartProd rest).map (fun pt => v :: pt)).length = _
    rw [flatMap_const_length l _ (cartProd rest).length (fun v => by simp)]
    rw [ih, List.map_cons, List.prod_cons]

lemma cartProd_ne_nil {ls : List (List ℚ)} (h : ∀ l ∈ ls, l ≠ []) :
    cartProd ls ≠ [] := by
  rw [← List.length_pos_iff_ne_nil, cartProd_length]
  refine List.prod_pos ?_
  intro a ha
  obtain ⟨l, hl, rfl⟩ := List.mem_map.mp ha
  exact List.length_pos_iff_ne_nil.mpr (h l hl)

lemma cartProd_head? (ls : List (List ℚ)) (h : ∀ l ∈ ls, l ≠ []) :
    (cartProd ls).head? = some (ls.map (fun l => l.headD 0)) := by
  induction ls with
  | nil => rfl
  | cons l rest ih =>
    obtain ⟨v, l', rfl⟩ := List.exists_cons_of_ne_nil (h l (List.mem_cons_self l rest))
    show ((v :: l').flatMap fun w => (cartProd rest).map (fun pt => w :: pt)).head? = _
    rw [List.flatMap_cons, List.head?_append, List.head?_map,
      ih (fun a ha => h a (List.mem_cons_of_mem _ ha))]
    rfl

lemma flatMap_getLast? {α β : Type} (f : α → List β) (hf : ∀ a, f a ≠ []) :
    ∀ l : List α, l ≠ [] →
      (l.flatMap f).getLast? = l.getLast?.bind (fun a => (f a).getLast?) := by
  intro l
  induction l with
  | nil => intro h; exact absurd rfl h
  | cons v t ih =>
    intro _
    cases t with
    | nil => simp
    | cons w t' =>
      rw [List.flatMap_cons, List.getLast?_append, ih (by simp)]
      have hw : (w :: t').getLast?.isSome := List.getLast?_isSome.mpr (by simp)
      obtain ⟨a, ha⟩ := Option.isSome_iff_exists.mp hw
      have hfa : (f a).getLast?.isSome := List.getLast?_isSome.mpr (hf a)
      obtain ⟨b, hb⟩ := Option.isSome_iff_exists.mp hfa
      simp [List.getLast?_cons_cons, ha, hb]

lemma cartProd_getLast? (ls : List (List ℚ)) (h : ∀ l ∈ ls, l ≠ []) :
    (cartProd ls).getLast? = some (ls.map (fun l => l.getLastD 0)) := by
  induction ls with
  | nil => rfl
  | cons l rest ih =>
    have hrest : cartProd rest ≠ [] :=
      cartProd_ne_nil (fun a ha => h a (List.mem_cons_of_mem l ha))
    have hl : l ≠ [] := h l (List.mem_cons_self l rest)
    show ((l).flatMap fun w => (cartProd rest).map (fun pt => w :: pt)).getLast? = _
    rw [flatMap_getLast? _ (fun a => by simpa using hrest) l hl]
    have hlast : l.getLast?.isSome := List.getLast?_isSome.mpr hl
    obtain ⟨a, ha⟩ := Option.isSome_iff_exists.mp hlast
    rw [ha]
    have hih := ih (fun a2 ha2 => h a2 (List.mem_cons_of_mem l ha2))
    simp [List.getLast?_map, hih, ha]

/- An affine sample `r * (hi - lo) + lo + xr` with `r ∈ [0, 1]` and
`lo = max (mn - xr) emn ≤ hi = min (mx - xr) emx` lies in `[mn, mx]` and its
error relative to `xr` lies in `[emn, emx]`. -/
lemma shrunk_box_bound (mn mx emn emx xr r : ℚ) (hr0 : 0 ≤ r) (hr1 : r ≤ 1)
    (hne : max (mn - xr) emn ≤ min (mx - xr) emx) :
    mn ≤ r * (min (mx - xr) emx - max (mn - xr) emn) + max (mn - xr) emn + xr ∧
    r * (min (mx - xr) emx - max (mn - xr) emn) + max (mn - xr) emn + xr ≤ mx ∧
    emn ≤ r * (min (mx - xr) emx - max (mn - xr) emn) + max (mn - xr) emn ∧
    r * (min (mx - xr) emx - max (mn - xr) emn) + max (mn - xr) emn ≤ emx := by
  have h1 : 0 ≤ r * (min (mx - xr) emx - max (mn - xr) emn) :=
    mul_nonneg hr0 (sub_nonneg.mpr hne)
  have h2 : r * (min (mx - xr) emx - max (mn - xr) emn) ≤
      min (mx - xr) emx - max (mn - xr) emn :=
    mul_le_of_le_one_left (sub_nonneg.mpr hne) hr1
  have h3 : mn - xr ≤ max (mn - xr) emn := le_max_left _ _
  have h4 : emn ≤ max (mn - xr) emn := le_max_right _ _
  have h5 : min (mx - xr) emx ≤ mx - xr := min_le_left _ _
  have h6 : min (mx - xr) emx ≤ emx := min_le_right _ _
  refine ⟨by linarith, by linarith, by linarith, by linarith⟩

/- Every value of `linspace 0 1 n` lies in `[0, 1]`. -/
lemma linspace01_mem {n : ℕ} {y : ℚ} (hy : y ∈ linspace 0 1 n) :
    0 ≤ y ∧ y ≤ 1 := by
  unfold linspace at hy
  by_cases h : n ≤ 1
  · rw [if_pos h] at hy
    rw [List.eq_of_mem_replicate hy]
    norm_num
  · rw [if_neg h] at hy
    obtain ⟨k, hk, rfl⟩ := List.mem_map.mp hy
    have hkn : k < n := List.mem_range.mp hk
    have hpos : (0 : ℚ) < (n : ℚ) - 1 := by
      have : (1 : ℚ) < (n : ℚ) := by exact_mod_cast (by omega : 1 < n)
      linarith
    constructor
    · have : (0 : ℚ) ≤ (k : ℚ) * (1 - 0) / ((n : ℚ) - 1) := by
        apply div_nonneg _ (le_of_lt hpos)
        positivity
      linarith
    · have hk1 : (k : ℚ) ≤ (n : ℚ) - 1 := by
        have : (k : ℚ) + 1 ≤ (n : ℚ) := by exact_mod_cast hkn
        linarith
      have : (k : ℚ) * (1 - 0) / ((n : ℚ) - 1) ≤ 1 := by
        rw [mul_one_sub, mul_zero, sub_zero, div_le_one hpos]
        exact hk1
      linarith

/- Every entry of a `cartProd` point comes from the corresponding family of
axis lists. -/
lemma cartProd_entries {ls : List (List ℚ)} {pt : List ℚ}
    (hpt : pt ∈ cartProd ls) : ∀ y ∈ pt, ∃ l ∈ ls, y ∈ l := by
  induction ls generalizing pt with
  | nil =>
    intro y hy
    unfold cartProd at hpt
    rw [List.mem_singleton] at hpt
    rw [hpt] at hy
    cases hy
  | cons l rest ih =>
    intro y hy
    unfold cartProd at hpt
    obtain ⟨v, hv, hmem⟩ := List.mem_flatMap.mp hpt
    obtain ⟨pt', hpt', rfl⟩ := List.mem_map.mp hmem
    rcases List.mem_cons.mp hy with h | h
    · exact ⟨l, List.mem_cons_self l rest, h ▸ hv⟩
    · obtain ⟨l2, hl2, hyl2⟩ := ih hpt' y h
      exact ⟨l2, List.mem_cons_of_mem l hl2, hyl2⟩

/- Every coordinate read off a `get_mesh_pos` point over the unit box (with
default 0 out of range) lies in `[0, 1]`. -/
lemma mesh01_getD {N : List ℕ} {pt : List ℚ}
    (hpt : pt ∈ get_mesh_pos N (fun _ => 0) (fun _ => 1)) (idx : ℕ) :
    0 ≤ pt.getD idx 0 ∧ pt.getD idx 0 ≤ 1 := by
  by_cases h : idx < pt.length
  · rw [getD_eq_getElem pt idx h 0]
    have hmem := List.getElem_mem h
    obtain ⟨l, hl, hyl⟩ := cartProd_entries hpt _ hmem
    obtain ⟨i, _, rfl⟩ := List.mem_map.mp hl
    exact linspace01_mem hyl
  · rw [List.getD_eq_getElem?_getD, List.getElem?_eq_none (by omega)]
    norm_num

/- Any `input_type` outside the supported set drives `sample_uref_traj` into
an error branch. -/
lemma sample_uref_traj_unsupported {nx nu : ℕ} (sys : CASys nx nu)
    (args : Args) (uP : Option (Fin nu → ℕ → ℚ)) (env : Env)
    (h : args.input_type ∉ supportedInputTypes) :
    ∃ e, sample_uref_traj sys args uP env = .error e := by
  have hni : ∀ s : String, s ∈ supportedInputTypes → ¬ args.input_type = s := by
    intro s hsmem he
    exact h (he ▸ hsmem)
  unfold sample_uref_traj
  by_cases h1 : hasSegment "discr".toList args.input_type.toList = true
  · rw [if_pos h1, if_neg (hni "discr10" (by simp [supportedInputTypes])),
      if_neg (hni "discr5" (by simp [supportedInputTypes]))]
    exact ⟨_, rfl⟩
  · rw [if_neg h1, if_neg (hni "polyn3" (by simp [supportedInputTypes])),
      if_neg (hni "sins5" (by simp [supportedInputTypes]))]
    by_cases h2 : hasSegment "sincos".toList args.input_type.toList = true
    · rw [if_pos h2, if_neg (hni "sincos5" (by simp [supportedInputTypes])),
        if_neg (hni "sincos3" (by simp [supportedInputTypes])),
        if_neg (hni "sincos2" (by simp [supportedInputTypes]))]
      cases uP <;> exact ⟨_, rfl⟩
    · rw [if_neg h2, if_neg (hni "sin1" (by simp [supportedInputTypes]))]
      by_cases h3 : hasSegment "cust".toList args.input_type.toList = true
      · rw [if_pos h3, if_neg (hni "cust1" (by simp [supportedInputTypes])),
          if_neg (hni "cust2" (by simp [supportedInputTypes])),
          if_neg (hni "cust3" (by simp [supportedInputTypes])),
          if_neg (hni "cust4" (by simp [supportedInputTypes]))]
        cases uP <;> exact ⟨_, rfl⟩
      · rw [if_neg h3]
        exact ⟨_, rfl⟩

/- For a `discr` configuration whose degenerate initial-reference point lies
above the admissible box, every iteration of the `get_valid_ref` loop cuts
its reference trajectory to length 0 and rejects it, so the `while True`
loop never returns: the fuel-indexed model yields `none` for every fuel. -/
lemma gvr_none_of_degenerate {nx nu : ℕ} (sys : CASys nx nu) (args : Args)
    (envs : ℕ → Env)
    (ht : args.input_type = "discr10" ∨ args.input_type = "discr5")
    (hdeg : sys.XREF0_MIN = sys.XREF0_MAX)
    (hout : ∃ j : Fin nx, sys.X_MAX j < sys.XREF0_MIN j) :
    ∀ fuel k : ℕ, get_valid_ref sys args envs k fuel = none := by
  have hbody : ∀ env : Env, gvr_body sys args env = .ok none := by
    intro env
    obtain ⟨j, hj⟩ := hout
    have hsamp : ∃ ur up, sample_uref_traj sys args none env = .ok (ur, up) := by
      obtain ⟨Ns, Nm, dts, it, fp⟩ := args
      dsimp only at ht
      rcases ht with h | h <;> subst h <;> exact ⟨_, _, rfl⟩
    obtain ⟨ur, up, hs⟩ := hsamp
    have hx0 : sample_xref0 sys env j = sys.XREF0_MIN j := by
      unfold sample_xref0
      rw [show sys.XREF0_MAX j = sys.XREF0_MIN j from (congrFun hdeg j).symm]
      ring
    have hlen0 : (cut_xref_traj sys
        (compute_xref_traj sys (sample_xref0 sys env) ur args) ur).1.length = 0 := by
      cases hN : args.N_sim with
      | zero =>
        have hxe : compute_xref_traj sys (sample_xref0 sys env) ur args = [] := by
          unfold compute_xref_traj
          rw [hN]
          rfl
        rw [hxe]
        unfold cut_xref_traj
        simp
      | succ m =>
        have hlen : (compute_xref_traj sys (sample_xref0 sys env) ur args).length
            = m + 1 := by
          unfold compute_xref_traj
          rw [hN]
          simp
        have h0 : 0 < (compute_xref_traj sys (sample_xref0 sys env) ur args).length := by
          omega
        have hget : (compute_xref_traj sys (sample_xref0 sys env) ur args)[0] =
            sample_xref0 sys env := by
          simp [compute_xref_traj, xrefRoll]
        have hfi : (compute_xref_traj sys (sample_xref0 sys env) ur args).findIdx
            (fun v => decide (sys.X_MAX j < v j)) = 0 := by
          refine (List.findIdx_eq h0).mpr ⟨?_, ?_⟩
          · rw [hget]
            simp only [hx0]
            exact decide_eq_true hj
          · intro i hi
            exact absurd hi (Nat.not_lt_zero i)
        have hncut : ((List.finRange nx).map (fun j' =>
            min ((compute_xref_traj sys (sample_xref0 sys env) ur args).findIdx
                (fun v => decide (sys.X_MAX j' < v j')))
              ((compute_xref_traj sys (sample_xref0 sys env) ur args).findIdx
                (fun v => decide (v j' < sys.X_MIN j'))))).foldr min
            (compute_xref_traj sys (sample_xref0 sys env) ur args).length = 0 := by
          refine Nat.le_zero.mp ?_
          refine le_trans (foldr_min_le_mem
            (List.mem_map_of_mem _ (List.mem_finRange j))) ?_
          rw [hfi]
          exact min_le_left _ _
        unfold cut_xref_traj
        simp only [hncut]
        simp
    unfold gvr_body
    rw [hs]
    simp only [hlen0, Nat.cast_zero]
    rw [if_neg (not_lt.mpr (by positivity))]
  intro fuel
  induction fuel with
  | zero => intro k; rfl
  | succ m ih =>
    intro k
    rw [get_valid_ref, hbody (envs k)]
    exact ih (k + 1)

lemma finSum_congr {n : ℕ} {f g : Fin n → ℚ} (h : ∀ i, f i = g i) :
    finSum n f = finSum n g := by
  induction n with
  | zero => rfl
  | succ m ih =>
    unfold finSum
    rw [ih (fun i => h i.castSucc), h (Fin.last m)]

end DensityMP

namespace DensityMP

/-- C1: `dfdx_func` returns, for every batch element, the closed-loop Jacobian
`da/dx + Σ_i (db/dx)_i · u_i + b·(du/dx)` (with `du/dx` the controller
Jacobian assembled row by row from the per-output reverse-mode gradients),
and `divf_func` returns the trace of this Jacobian per sample: one scalar per
batch element, the list keeping exactly the batch length (no reduction across
the batch). -/
theorem C1_dfdx_divf {nx nu : ℕ} (sys : CASys nx nu) (xs : List (Vec nx))
    (xref : Vec nx) (uref : Vec nu) :
    dfdx_func sys xs xref uref = xs.map (fun x => dfdx_spec sys x xref uref) ∧
    divf_func sys xs xref uref =
      xs.map (fun x => traceM (dfdx_spec sys x xref uref)) ∧
    (divf_func sys xs xref uref).length = xs.length := by
  have hsample : ∀ x : Vec nx, dfdx_sample sys x xref uref = dfdx_spec sys x xref uref := by
    intro x
    funext m i
    unfold dfdx_sample dfdx_spec dbdx_u dudx_func jacobian
    have : finSum nu (fun k => sys.dbdx x m k i * sys.u x xref uref k) =
        finSum nu (fun k => sys.u x xref uref k * sys.dbdx x m k i) :=
      finSum_congr fun k => mul_comm _ _
    rw [this]
  refine ⟨?_, ?_, ?_⟩
  · unfold dfdx_func
    exact List.map_congr_left fun x _ => hsample x
  · unfold divf_func dfdx_func
    rw [List.map_map]
    exact List.map_congr_left fun x _ => by simp [Function.comp, hsample x]
  · unfold divf_func dfdx_func
    simp

/-- C4: in non-log mode with clamping enabled, the clamping stage of
`compute_density` acts entrywise (entries above `1e30` become `1e30`,
negative entries become `0`, `nan` entries become `1e30`, everything else is
untouched), and consequently every entry of the returned density trajectory
is a finite value in `[0, 1e30]`, whatever the pre-clamp values were. -/
theorem C4_density_clamped {nx nu : ℕ} (sys : CASys nx nu) (plog : ℚ → ℚ)
    (xe0s : List (Vec nx)) (xref : ℕ → Vec nx) (uref : ℕ → Vec nu) (N : ℕ)
    (dt : ℚ) (rho0s : Option (List FVal)) :
    (∀ T : List (List FVal),
        clampStage false T = T.map (List.map (entryClamp false))) ∧
    ∀ R : List (List FVal),
      (compute_density sys plog xe0s xref uref N dt rho0s true true false).2 =
        some R →
      ∀ row ∈ R, ∀ v ∈ row, ∃ q : ℚ, v = FVal.fin q ∧ 0 ≤ q ∧ q ≤ big := by
  refine ⟨fun T => clampStage_eq false T, ?_⟩
  intro R hR row hrow v hv
  unfold compute_density at hR
  simp only [if_true, Option.some.injEq] at hR
  rw [← hR] at hrow
  rw [clampStage_eq] at hrow
  obtain ⟨row0, _, hrow0⟩ := List.mem_map.mp hrow
  rw [← hrow0] at hv
  obtain ⟨w, _, hw⟩ := List.mem_map.mp hv
  rw [← hw]
  exact entryClamp_false_range w

/-- Witness for C4 at a concrete run of `compute_density` on the trivial
one-dimensional system: the single returned density entry is a finite value
in `[0, 1e30]`. -/
theorem C4_density_clamped_witness :
    ∃ q : ℚ, FVal.fin 1 = FVal.fin q ∧ 0 ≤ q ∧ q ≤ big :=
  (C4_density_clamped sysZ plogZ [zeroV] (fun _ => zeroV) (fun _ => zeroV)
      0 1 none).2 [[FVal.fin 1]] (by decide) [FVal.fin 1] (by decide)
    (FVal.fin 1) (by decide)

/-- C6: for a system whose closed-loop divergence vanishes identically, both
density update rules leave a finite density unchanged (`get_next_rho` returns
`rho`, `get_next_rholog` returns `rholog` since `log(1 - 0·dt) = 0`), and the
density trajectory computed by `compute_density` (with the default initial
density) is constant in time: every entry equals the entry at step 0. -/
theorem C6_divergence_free {nx nu : ℕ} (sys : CASys nx nu) (plog : ℚ → ℚ)
    (hdiv : ∀ (x xref : Vec nx) (uref : Vec nu), divf_sample sys x xref uref = 0)
    (hlog : plog 1 = 0) :
    (∀ (x xref : Vec nx) (uref : Vec nu) (r dt : ℚ),
        get_next_rho sys x xref uref (FVal.fin r) dt = FVal.fin r) ∧
    (∀ (x xref : Vec nx) (uref : Vec nu) (r dt : ℚ),
        get_next_rholog sys plog x xref uref (FVal.fin r) dt = FVal.fin r) ∧
    ∀ (logd : Bool) (xe0s : List (Vec nx)) (xref : ℕ → Vec nx)
      (uref : ℕ → Vec nu) (N : ℕ) (dt : ℚ) (R : List (List FVal)),
      (compute_density sys plog xe0s xref uref N dt none true true logd).2 =
        some R →
      ∀ row ∈ R, ∀ i < row.length,
        row.getD i (FVal.fin 0) = row.getD 0 (FVal.fin 0) := by
  have h1 : ∀ (x xref : Vec nx) (uref : Vec nu) (r dt : ℚ),
      get_next_rho sys x xref uref (FVal.fin r) dt = FVal.fin r := by
    intro x xref uref r dt
    unfold get_next_rho
    rw [hdiv]
    simp [FVal.fmulQ, FVal.fadd]
  have h2 : ∀ (x xref : Vec nx) (uref : Vec nu) (r dt : ℚ),
      get_next_rholog sys plog x xref uref (FVal.fin r) dt = FVal.fin r := by
    intro x xref uref r dt
    unfold get_next_rholog
    rw [hdiv]
    have hl : FVal.flogQ plog 1 = FVal.fin 0 := by
      unfold FVal.flogQ
      norm_num [hlog]
    simp [hl, FVal.fadd]
  refine ⟨h1, h2, ?_⟩
  intro logd xe0s xref uref N dt R hR row hrow i hi
  have hroll : ∀ (x0 : Vec nx) (i : ℕ),
      rhoRoll sys plog logd xref uref dt x0
          (if logd then FVal.fin 0 else FVal.fin 1) i =
        (if logd then FVal.fin 0 else FVal.fin 1) := by
    intro x0 i
    induction i with
    | zero => rfl
    | succ n ih =>
      rw [rhoRoll]
      simp only [ih]
      cases logd with
      | true => simp [h2]
      | false => simp [h1]
  unfold compute_density at hR
  simp only [if_true, Option.some.injEq] at hR
  rw [← hR] at hrow
  rw [clampStage_eq] at hrow
  obtain ⟨row0, hrow0m, hrow0⟩ := List.mem_map.mp hrow
  obtain ⟨p, hpm, hp⟩ := List.mem_map.mp hrow0m
  have hp2 : p.2 = (if logd then FVal.fin 0 else FVal.fin 1) := by
    have := (List.of_mem_zip (a := p.1) (b := p.2) (by simpa using hpm)).2
    simp only [Option.getD] at this
    obtain ⟨a, _, ha⟩ := List.mem_map.mp this
    exact ha.symm
  have hconst : entryClamp logd (if logd then FVal.fin 0 else FVal.fin 1) =
      (if logd then FVal.fin 0 else FVal.fin 1) := by
    cases logd with
    | true => norm_num [entryClamp, FVal.isNanB, FVal.fgtQ, FVal.fltQ, big]
    | false => norm_num [entryClamp, FVal.isNanB, FVal.fgtQ, FVal.fltQ, big]
  have hrowconst : row = (List.range (N + 1)).map
      (fun _ => (if logd then FVal.fin 0 else FVal.fin 1)) := by
    rw [← hrow0, ← hp]
    rw [List.map_map]
    refine List.map_congr_left fun j _ => ?_
    rw [Function.comp_apply, hp2, hroll, hconst]
  rw [hrowconst] at hi ⊢
  simp only [List.length_map, List.length_range] at hi
  rw [getD_map_range _ _ _ hi, getD_map_range _ _ _ (Nat.succ_pos N)]

/-- Witness for C6 on the pure rotation system (divergence identically zero):
both update rules leave concrete finite densities unchanged. -/
theorem C6_divergence_free_witness :
    get_next_rho rotSys (fun _ => 3) zeroV2 (fun _ => 0) (FVal.fin 5) (1 / 10) =
      FVal.fin 5 ∧
    get_next_rholog rotSys plogZ (fun _ => 3) zeroV2 (fun _ => 0) (FVal.fin 7)
        (1 / 10) = FVal.fin 7 := by
  have h := C6_divergence_free rotSys plogZ divf_rotSys rfl
  exact ⟨h.1 (fun _ => 3) zeroV2 (fun _ => 0) 5 (1 / 10),
    h.2.1 (fun _ => 3) zeroV2 (fun _ => 0) 7 (1 / 10)⟩

/-- C2 (amended): the log-domain singularity is not detected at the offending
step and the episode is neither truncated nor marked invalid there.  When
`1 − div(f)·dt < 0` at step `k`, the `nan` produced by `log` propagates
through every remaining update step of the loop, and only the final cutting
stage replaces `nan` entries by the sentinel `1e30`: the returned density
trajectory keeps its full length `N + 1`, carries `1e30` (not `nan`) at every
step after `k`, and contains no `nan` anywhere. -/
theorem C2_log_singularity {nx nu : ℕ} (sys : CASys nx nu) (plog : ℚ → ℚ)
    (xe0 : Vec nx) (xref : ℕ → Vec nx) (uref : ℕ → Vec nu) (N : ℕ) (dt : ℚ)
    (k : ℕ) (_hk : k < N)
    (hsing : 1 - divf_sample sys
          (xRoll sys xref uref dt (fun m => xe0 m + xref 0 m) k)
          (xref k) (uref k) * dt < 0) :
    ∃ row : List FVal,
      (compute_density sys plog [xe0] xref uref N dt none true true true).2 =
        some [row] ∧
      row.length = N + 1 ∧
      (∀ i, k < i → i < N + 1 → row.getD i FVal.nan = FVal.fin big) ∧
      (∀ v ∈ row, FVal.isNanB v = false) := by
  refine ⟨((List.range (N + 1)).map
      (fun i => rhoRoll sys plog true xref uref dt
        (fun m => xe0 m + xref 0 m) (FVal.fin 0) i)).map (entryClamp true),
    ?_, ?_, ?_, ?_⟩
  · unfold compute_density
    simp only [if_true, Option.some.injEq]
    rw [clampStage_eq]
    simp only [List.map_cons, List.map_nil, Option.getD, List.zip_cons_cons,
      List.zip_nil_right]
  · simp
  · intro i hki hiN
    rw [List.map_map, getD_map_range _ _ _ (by simpa using hiN), Function.comp_apply]
    have hnan : rhoRoll sys plog true xref uref dt
        (fun m => xe0 m + xref 0 m) (FVal.fin 0) i = FVal.nan := by
      refine rhoRoll_nan_of_le sys plog true xref uref dt _ _ (k + 1)
        (rhoRoll_singular sys plog xref uref dt _ _ k hsing) i hki
    rw [hnan]
    simp [entryClamp, FVal.isNanB]
  · intro v hv
    obtain ⟨w, _, hw⟩ := List.mem_map.mp hv
    rw [← hw]
    exact entryClamp_not_nan true w

/-- Witness for C2 (amended) on the constant-divergence system `sysD` with
`div(f)·dt = 2`: applying the theorem at `k = 0`, `N = 3`. -/
theorem C2_log_singularity_witness :
    ∃ row : List FVal,
      (compute_density sysD plogZ [zeroV] (fun _ => zeroV) (fun _ => zeroV) 3
          (1 / 100) none true true true).2 = some [row] ∧
      row.length = 3 + 1 ∧
      (∀ i, 0 < i → i < 3 + 1 → row.getD i FVal.nan = FVal.fin big) ∧
      (∀ v ∈ row, FVal.isNanB v = false) :=
  C2_log_singularity sysD plogZ zeroV (fun _ => zeroV) (fun _ => zeroV) 3
    (1 / 100) 0 (by decide) (by rw [divf_sysD]; norm_num)

/-- Counterexample to C2 as stated: on `sysD` the singularity
`div(f)·dt = 2 ≥ 1` occurs already at step `k = 0`, yet the density
trajectory returned by `compute_density` is not truncated at step 0 and no
invalid marker exists: it has its full length 4, the `nan` produced at the
offending step is carried through the loop and only replaced by the sentinel
`1e30` at the very end. -/
theorem C2_log_singularity_cex :
    (compute_density sysD plogZ [zeroV] (fun _ => zeroV) (fun _ => zeroV) 3
        (1 / 100) none true true true).2 =
      some [[FVal.fin 0, FVal.fin big, FVal.fin big, FVal.fin big]] := by
  have rn : ∀ (x0 : Vec 1) (i : ℕ), 1 ≤ i →
      rhoRoll sysD plogZ true (fun _ => zeroV) (fun _ => zeroV) (1 / 100) x0
          (FVal.fin 0) i = FVal.nan := by
    intro x0 i hi
    refine rhoRoll_nan_of_le sysD plogZ true _ _ _ _ _ 1 ?_ i hi
    refine rhoRoll_singular sysD plogZ _ _ _ _ _ 0 ?_
    rw [divf_sysD]
    norm_num
  have hrow : ∀ x0 : Vec 1, (List.range (3 + 1)).map
      (fun i => rhoRoll sysD plogZ true (fun _ => zeroV) (fun _ => zeroV)
        (1 / 100) x0 (FVal.fin 0) i) =
      [FVal.fin 0, FVal.nan, FVal.nan, FVal.nan] := by
    intro x0
    rw [show List.range (3 + 1) = [0, 1, 2, 3] from rfl]
    simp only [List.map_cons, List.map_nil]
    rw [rn x0 1 (by norm_num), rn x0 2 (by norm_num), rn x0 3 (by norm_num)]
    rfl
  have hgt0 : FVal.fgtQ (FVal.fin 0) big = false := by
    simp only [FVal.fgtQ, decide_eq_false_iff_not, not_lt]
    exact big_nonneg
  unfold compute_density
  simp only [if_true, Option.some.injEq, List.map_cons, List.map_nil,
    Option.getD, List.zip_cons_cons, List.zip_nil_right]
  rw [clampStage_eq]
  simp only [List.map_cons, List.map_nil, hrow]
  simp [entryClamp, FVal.isNanB, hgt0]

/-- C3 (amended): when the reference trajectory first leaves the admissible
box at index `k ≥ 1` (crossing `X_MAX` on dimension `j`, all indices before
`k` in bounds on every dimension), `cut_xref_traj` returns an `xref_traj` of
length exactly `k` but a `uref_traj` of length `min (k - 1)`
`uref_traj.length` — one shorter than `k`, not `k`.  When no bound is
violated anywhere, `xref_traj` keeps its full length `L` and `uref_traj` is
cut to `min (L - 1) uref_traj.length` (its full length at the call sites,
where it arrives with `L - 1` entries). -/
theorem C3_cut_lengths {nx nu : ℕ} (sys : CASys nx nu) (xrefT : List (Vec nx))
    (urefT : List (Vec nu)) :
    (∀ (k : ℕ) (j : Fin nx), k < xrefT.length → 1 ≤ k →
      (∀ i, i < k → ∀ j' : Fin nx,
        sys.X_MIN j' ≤ xrefT.getD i (fun _ => 0) j' ∧
          xrefT.getD i (fun _ => 0) j' ≤ sys.X_MAX j') →
      sys.X_MAX j < xrefT.getD k (fun _ => 0) j →
      (cut_xref_traj sys xrefT urefT).1.length = k ∧
      (cut_xref_traj sys xrefT urefT).2.length = min (k - 1) urefT.length) ∧
    ((∀ v ∈ xrefT, ∀ j : Fin nx, sys.X_MIN j ≤ v j ∧ v j ≤ sys.X_MAX j) →
      1 ≤ xrefT.length →
      (cut_xref_traj sys xrefT urefT).1.length = xrefT.length ∧
      (cut_xref_traj sys xrefT urefT).2.length =
        min (xrefT.length - 1) urefT.length) := by
  constructor
  · intro k j hk hk1 hbefore hviol
    have h1 : (0 : ℤ) ≤ (k : ℤ) - 1 := by omega
    have h2 : ((k : ℤ) - 1).toNat = k - 1 := by omega
    have hncut : ((List.finRange nx).map (fun j' =>
        min (xrefT.findIdx (fun v => decide (sys.X_MAX j' < v j')))
          (xrefT.findIdx (fun v => decide (v j' < sys.X_MIN j'))))).foldr min
        xrefT.length = k := by
      have hup : xrefT.findIdx (fun v => decide (sys.X_MAX j < v j)) = k := by
        refine (List.findIdx_eq hk).mpr ⟨?_, ?_⟩
        · rw [← getD_eq_getElem xrefT k hk (fun _ => 0)]
          exact decide_eq_true hviol
        · intro i hi
          rw [← getD_eq_getElem xrefT i (lt_trans hi hk) (fun _ => 0)]
          exact decide_eq_false (not_lt.mpr (hbefore i hi j).2)
      have hlo : ∀ j' : Fin nx,
          k ≤ min (xrefT.findIdx (fun v => decide (sys.X_MAX j' < v j')))
            (xrefT.findIdx (fun v => decide (v j' < sys.X_MIN j'))) := by
        intro j'
        refine le_min ?_ ?_
        · refine List.le_findIdx_of_not hk ?_
          intro i hi
          rw [← getD_eq_getElem xrefT i (lt_trans hi hk) (fun _ => 0)]
          exact decide_eq_false (not_lt.mpr (hbefore i hi j').2)
        · refine List.le_findIdx_of_not hk ?_
          intro i hi
          rw [← getD_eq_getElem xrefT i (lt_trans hi hk) (fun _ => 0)]
          exact decide_eq_false (not_lt.mpr (hbefore i hi j').1)
      refine Nat.le_antisymm ?_ ?_
      · refine le_trans (foldr_min_le_mem
          (List.mem_map_of_mem _ (List.mem_finRange j))) ?_
        rw [hup]
        exact min_le_left _ _
      · refine le_foldr_min ?_ (le_of_lt hk)
        intro a ha
        obtain ⟨j', _, hj'⟩ := List.mem_map.mp ha
        rw [← hj']
        exact hlo j'
    unfold cut_xref_traj
    simp only [hncut]
    constructor
    · simp [Nat.min_eq_left (le_of_lt hk)]
    · unfold pySlice
      rw [if_pos h1, h2]
      simp
  · intro hin hlen
    have h1 : (0 : ℤ) ≤ (xrefT.length : ℤ) - 1 := by omega
    have h2 : ((xrefT.length : ℤ) - 1).toNat = xrefT.length - 1 := by omega
    have hncut : ((List.finRange nx).map (fun j' =>
        min (xrefT.findIdx (fun v => decide (sys.X_MAX j' < v j')))
          (xrefT.findIdx (fun v => decide (v j' < sys.X_MIN j'))))).foldr min
        xrefT.length = xrefT.length := by
      refine Nat.le_antisymm (foldr_min_le_base _ _) ?_
      refine le_foldr_min ?_ (le_refl _)
      intro a ha
      obtain ⟨j', _, hj'⟩ := List.mem_map.mp ha
      rw [← hj']
      refine le_min ?_ ?_
      · rw [List.findIdx_eq_length_of_false]
        intro v hv
        exact decide_eq_false (not_lt.mpr (hin v hv j').2)
      · rw [List.findIdx_eq_length_of_false]
        intro v hv
        exact decide_eq_false (not_lt.mpr (hin v hv j').1)
    unfold cut_xref_traj
    simp only [hncut]
    constructor
    · simp
    · unfold pySlice
      rw [if_pos h1, h2]
      simp

/-- Witness for C3 (amended) on a concrete three-step trajectory that first
crosses `X_MAX = 5` at index `k = 2`: the returned `xref_traj` has length 2
and the returned `uref_traj` has length `min 1 2 = 1`. -/
theorem C3_cut_lengths_witness :
    (cut_xref_traj sysZ [zeroV, zeroV, fun _ => 6] [zeroV, zeroV]).1.length = 2 ∧
    (cut_xref_traj sysZ [zeroV, zeroV, fun _ => 6] [zeroV, zeroV]).2.length =
      min (2 - 1) 2 :=
  (C3_cut_lengths sysZ [zeroV, zeroV, fun _ => 6] [zeroV, zeroV]).1 2 0
    (by decide) (by decide)
    (by
      intro i hi j'
      interval_cases i <;> constructor <;> norm_num [zeroV, sysZ, List.getD])
    (by norm_num [sysZ, List.getD])

/-- Counterexample to C3 as stated: on a trajectory that first crosses
`X_MAX` at index `k = 2`, the returned `xref_traj` has length 2 but the
returned `uref_traj` does not — its length is 1, so the two returned
trajectories do not both have length exactly `k`. -/
theorem C3_cut_lengths_cex :
    (cut_xref_traj sysZ [zeroV, zeroV, fun _ => 6] [zeroV, zeroV]).1.length = 2 ∧
    (cut_xref_traj sysZ [zeroV, zeroV, fun _ => 6] [zeroV, zeroV]).2.length ≠ 2 := by
  decide

/-- C9: `get_mesh_pos` returns exactly the product of the per-dimension
counts (so `[3, 4]` over a 2-D box gives 12 points), and — when every count
is at least 2 — the first returned point is the box's minimum corner and the
last its maximum corner. -/
theorem C9_mesh_pos (N : List ℕ) (x_min x_max : ℕ → ℚ) :
    (get_mesh_pos N x_min x_max).length = N.prod ∧
    ((∀ n ∈ N, 2 ≤ n) →
      (get_mesh_pos N x_min x_max).head? =
        some ((List.range N.length).map x_min) ∧
      (get_mesh_pos N x_min x_max).getLast? =
        some ((List.range N.length).map x_max)) := by
  have hself : (List.range N.length).map (fun i => N.getD i 0) = N := by
    refine List.ext_getElem (by simp) ?_
    intro i h1 h2
    simp only [List.getElem_map, List.getElem_range]
    exact (getD_eq_getElem N i h2 0).symm ▸ rfl
  have hcount : ∀ i, i < N.length → N.getD i 0 ∈ N := by
    intro i hi
    rw [getD_eq_getElem N i hi 0]
    exact List.getElem_mem hi
  constructor
  · unfold get_mesh_pos
    rw [cartProd_length, List.map_map]
    have h1 : (List.range N.length).map
        (List.length ∘ fun i => linspace (x_min i) (x_max i) (N.getD i 0)) =
        (List.range N.length).map (fun i => N.getD i 0) := by
      refine List.map_congr_left fun i _ => ?_
      simp [linspace_length]
    rw [h1, hself]
  · intro hN
    have hne : ∀ l ∈ (List.range N.length).map
        (fun i => linspace (x_min i) (x_max i) (N.getD i 0)), l ≠ [] := by
      intro l hl
      obtain ⟨i, hi, rfl⟩ := List.mem_map.mp hl
      have hilen : i < N.length := by simpa using hi
      refine linspace_ne_nil _ _ ?_
      have := hN _ (hcount i hilen)
      omega
    constructor
    · unfold get_mesh_pos
      rw [cartProd_head? _ hne, List.map_map]
      congr 1
      refine List.map_congr_left fun i hi => ?_
      have hilen : i < N.length := by simpa using hi
      simp only [Function.comp_apply]
      refine linspace_headD _ _ ?_
      have := hN _ (hcount i hilen)
      omega
    · unfold get_mesh_pos
      rw [cartProd_getLast? _ hne, List.map_map]
      congr 1
      refine List.map_congr_left fun i hi => ?_
      have hilen : i < N.length := by simpa using hi
      simp only [Function.comp_apply]
      exact linspace_getLastD _ _ (hN _ (hcount i hilen))

/-- Witness for C9: a `[3, 4]` mesh over the unit box `[0, 1]²` has exactly
12 points, the first being the minimum corner and the last the maximum
corner. -/
theorem C9_mesh_pos_witness :
    (get_mesh_pos [3, 4] (fun _ => 0) (fun _ => 1)).length = ([3, 4] : List ℕ).prod ∧
    (get_mesh_pos [3, 4] (fun _ => 0) (fun _ => 1)).head? =
      some ((List.range ([3, 4] : List ℕ).length).map (fun _ => (0 : ℚ))) ∧
    (get_mesh_pos [3, 4] (fun _ => 0) (fun _ => 1)).getLast? =
      some ((List.range ([3, 4] : List ℕ).length).map (fun _ => (1 : ℚ))) := by
  have h := C9_mesh_pos [3, 4] (fun _ => 0) (fun _ => 1)
  exact ⟨h.1, (h.2 (by decide)).1, (h.2 (by decide)).2⟩

/-- C10: provided the intersected sampling box is non-empty component-wise
(`max (X_MIN - xref0, XE0_MIN) ≤ min (X_MAX - xref0, XE0_MAX)`), every
initial state returned by `sample_x0` — in the uniform-random branch (draws
in `[0, 1]`) and in the deterministic mesh branch — lies inside the
admissible box `[X_MIN, X_MAX]`, and its error relative to `xref0` lies
inside `[XE0_MIN, XE0_MAX]`. -/
theorem C10_sample_x0_inside {nx nu : ℕ} (sys : CASys nx nu) (xref0 : Vec nx)
    (hne : ∀ j : Fin nx,
      max (sys.X_MIN j - xref0 j) (sys.XE0_MIN j) ≤
        min (sys.X_MAX j - xref0 j) (sys.XE0_MAX j)) :
    (∀ (n : ℕ) (env : Env), (∀ i, 0 ≤ env.rand i ∧ env.rand i ≤ 1) →
      ∀ x ∈ sample_x0_rand sys xref0 n env, ∀ j : Fin nx,
        sys.X_MIN j ≤ x j ∧ x j ≤ sys.X_MAX j ∧
          sys.XE0_MIN j ≤ x j - xref0 j ∧ x j - xref0 j ≤ sys.XE0_MAX j) ∧
    (∀ N : List ℕ, ∀ x ∈ sample_x0_mesh sys xref0 N, ∀ j : Fin nx,
        sys.X_MIN j ≤ x j ∧ x j ≤ sys.X_MAX j ∧
          sys.XE0_MIN j ≤ x j - xref0 j ∧ x j - xref0 j ≤ sys.XE0_MAX j) := by
  constructor
  · intro n env henv x hx j
    unfold sample_x0_rand at hx
    obtain ⟨s, _, rfl⟩ := List.mem_map.mp hx
    dsimp only
    have h := shrunk_box_bound (sys.X_MIN j) (sys.X_MAX j) (sys.XE0_MIN j)
      (sys.XE0_MAX j) (xref0 j) (env.rand (s * nx + j.val))
      (henv _).1 (henv _).2 (hne j)
    refine ⟨h.1, h.2.1, ?_, ?_⟩
    · rw [add_sub_cancel_right]
      exact h.2.2.1
    · rw [add_sub_cancel_right]
      exact h.2.2.2
  · intro N x hx j
    unfold sample_x0_mesh at hx
    obtain ⟨pt, hpt, rfl⟩ := List.mem_map.mp hx
    dsimp only
    have hr := mesh01_getD hpt j.val
    have h := shrunk_box_bound (sys.X_MIN j) (sys.X_MAX j) (sys.XE0_MIN j)
      (sys.XE0_MAX j) (xref0 j) (pt.getD j.val 0) hr.1 hr.2 (hne j)
    refine ⟨h.1, h.2.1, ?_, ?_⟩
    · rw [add_sub_cancel_right]
      exact h.2.2.1
    · rw [add_sub_cancel_right]
      exact h.2.2.2

/-- Witness for C10: the single random sample drawn with `rand = 1/2` around
`xref0 = 0` on the trivial system lies inside the admissible box, and its
error lies inside the initial-error box. -/
theorem C10_sample_x0_inside_witness :
    sysZ.X_MIN 0 ≤ (sample_x0_rand sysZ zeroV 1 envC).getD 0 (fun _ => 0) 0 ∧
    (sample_x0_rand sysZ zeroV 1 envC).getD 0 (fun _ => 0) 0 ≤ sysZ.X_MAX 0 ∧
    sysZ.XE0_MIN 0 ≤
      (sample_x0_rand sysZ zeroV 1 envC).getD 0 (fun _ => 0) 0 - zeroV 0 ∧
    (sample_x0_rand sysZ zeroV 1 envC).getD 0 (fun _ => 0) 0 - zeroV 0 ≤
      sysZ.XE0_MAX 0 := by
  have hmem : (sample_x0_rand sysZ zeroV 1 envC).getD 0 (fun _ => 0) ∈
      sample_x0_rand sysZ zeroV 1 envC := by
    have hlen : 0 < (sample_x0_rand sysZ zeroV 1 envC).length := by
      simp [sample_x0_rand]
    rw [getD_eq_getElem _ 0 hlen _]
    exact List.getElem_mem hlen
  exact (C10_sample_x0_inside sysZ zeroV
      (by intro j; norm_num [sysZ, zeroV])).1 1 envC
    (by intro i; norm_num [envC]) _ hmem 0

/-- C5 (amended): two-run determinism holds for the `discr` parameterizations
— the only ones that accept a caller-supplied `u_params`: with the same
`u_params`, initial reference state and configuration, `sample_uref_traj`
and `u_params2ref_traj` return identical `uref_traj` and `xref_traj` whatever
the random draw environments.  Every other supported parameterization raises
`NotImplementedError` as soon as a `u_params` is supplied, returning no
trajectories at all. -/
theorem C5_discr_determinism {nx nu : ℕ} (sys : CASys nx nu) (args : Args)
    (p : Fin nu → ℕ → ℚ) (xref0 : Vec nx) (short : Bool) (env1 env2 : Env)
    (h : args.input_type = "discr10" ∨ args.input_type = "discr5") :
    (sample_uref_traj sys args (some p) env1 =
      sample_uref_traj sys args (some p) env2) ∧
    (u_params2ref_traj sys xref0 p args env1 short =
      u_params2ref_traj sys xref0 p args env2 short) ∧
    ∀ s ∈ (["polyn3", "sins5", "sincos5", "sincos3", "sincos2", "sin1",
        "cust1", "cust2", "cust3", "cust4"] : List String), ∀ env : Env,
      sample_uref_traj sys { args with input_type := s } (some p) env =
        .error .notImplemented := by
  obtain ⟨Ns, Nm, dts, it, fp⟩ := args
  refine ⟨?_, ?_, ?_⟩
  · dsimp only at h
    rcases h with h | h <;> subst h <;> rfl
  · dsimp only at h
    rcases h with h | h <;> subst h <;> rfl
  · intro s hs env
    fin_cases hs <;> rfl

/-- Witness for C5 (amended) on the `discr10` configuration: with the
caller-supplied zero `u_params`, the sampler and `u_params2ref_traj` return
the same trajectories under two different draw environments. -/
theorem C5_discr_determinism_witness :
    (sample_uref_traj sysZ argsD (some uPC) envC =
      sample_uref_traj sysZ argsD (some uPC) envD) ∧
    (u_params2ref_traj sysZ zeroV uPC argsD envC true =
      u_params2ref_traj sysZ zeroV uPC argsD envD true) :=
  ⟨(C5_discr_determinism sysZ argsD uPC zeroV true envC envD (Or.inl rfl)).1,
    (C5_discr_determinism sysZ argsD uPC zeroV true envC envD (Or.inl rfl)).2.1⟩

/-- Counterexample to C5 as stated: for the supported parameterization
`polyn3`, invoking the reference sampler (or `u_params2ref_traj`) with a
caller-supplied `u_params` does not return bit-identical trajectories — it
returns no trajectories at all, raising `NotImplementedError`. -/
theorem C5_discr_determinism_cex :
    sample_uref_traj sysZ argsP (some uPC) envC =
      .error SErr.notImplemented ∧
    u_params2ref_traj sysZ zeroV uPC argsP envC true =
      .error SErr.notImplemented :=
  ⟨rfl, rfl⟩

/-- C8: for every `input_type` outside the supported enumerated set,
`sample_uref_traj` fails immediately — no trajectory is produced (the error
is the explicit `NotImplementedError` or the `UnboundLocalError` of a branch
local that was never assigned) — and `get_valid_ref` propagates the error
from its first iteration unchanged whatever the iteration budget: the
failure is not retried. -/
theorem C8_unsupported_fails {nx nu : ℕ} (sys : CASys nx nu) (args : Args)
    (uP : Option (Fin nu → ℕ → ℚ)) (env : Env) (envs : ℕ → Env) (k : ℕ)
    (h : args.input_type ∉ supportedInputTypes) :
    (∃ e, sample_uref_traj sys args uP env = .error e) ∧
    ∃ e, sample_uref_traj sys args none (envs k) = .error e ∧
      ∀ fuel, 1 ≤ fuel →
        get_valid_ref sys args envs k fuel = some (.error e) := by
  refine ⟨sample_uref_traj_unsupported sys args uP env h, ?_⟩
  obtain ⟨e, he⟩ := sample_uref_traj_unsupported sys args none (envs k) h
  refine ⟨e, he, ?_⟩
  intro fuel hfuel
  obtain ⟨m, rfl⟩ : ∃ m, fuel = m + 1 := ⟨fuel - 1, by omega⟩
  show get_valid_ref sys args envs k (m + 1) = some (.error e)
  rw [get_valid_ref]
  unfold gvr_body
  rw [he]

/-- Witness for C8 at the unsupported tag `fourier7`: the sampler errors,
and `get_valid_ref` returns that error without retrying for every positive
fuel. -/
theorem C8_unsupported_fails_witness :
    (∃ e, sample_uref_traj sysZ argsU (some uPC) envC = .error e) ∧
    ∃ e, sample_uref_traj sysZ argsU none envC = .error e ∧
      ∀ fuel, 1 ≤ fuel →
        get_valid_ref sysZ argsU (fun _ => envC) 0 fuel = some (.error e) :=
  C8_unsupported_fails sysZ argsU (some uPC) envC (fun _ => envC) 0 (by decide)

/-- C7 (amended): the resample-and-retry loop lives inside the core —
`get_valid_ref` is a `while True` loop with no caller-supplied iteration
budget.  It does not terminate for every configuration: whenever the
(degenerate) initial-reference box lies above the admissible state box,
every iteration cuts its sampled reference trajectory to length 0 and
resamples, so the loop runs forever (the fuel-indexed model returns `none`
for every fuel); the loop returns only when some iteration's trajectory
passes the `0.8·N_sim` threshold, in which case it stops at that iteration. -/
theorem C7_get_valid_ref_loop {nx nu : ℕ} (sys : CASys nx nu) (args : Args)
    (envs : ℕ → Env) :
    ((args.input_type = "discr10" ∨ args.input_type = "discr5") →
      sys.XREF0_MIN = sys.XREF0_MAX →
      (∃ j : Fin nx, sys.X_MAX j < sys.XREF0_MIN j) →
      gvr_diverges sys args envs) ∧
    ∀ r, gvr_body sys args (envs 0) = .ok (some r) →
      get_valid_ref sys args envs 0 1 = some (.ok r) := by
  constructor
  · intro ht hdeg hout fuel
    exact gvr_none_of_degenerate sys args envs ht hdeg hout fuel 0
  · intro r hr
    rw [get_valid_ref, hr]

/-- Witness for C7 (amended): on `sysLoop` (initial-reference point `10`,
admissible box `[-5, 5]`) the loop is still running after 3 iterations of
fuel. -/
theorem C7_get_valid_ref_loop_witness :
    get_valid_ref sysLoop argsD (fun _ => envC) 0 3 = none :=
  (C7_get_valid_ref_loop sysLoop argsD (fun _ => envC)).1 (Or.inl rfl) rfl
    ⟨0, by norm_num [sysLoop]⟩ 3

/-- Counterexample to C7 as stated: `get_valid_ref` itself loops forever on
the configuration `sysLoop` (every sampled reference trajectory is truncated
to length 0, below the acceptance threshold), refuting that the
resample-and-retry happens only at the caller level under a caller-supplied
budget and that every core routine terminates for every configuration. -/
theorem C7_get_valid_ref_loop_cex : gvr_diverges sysLoop argsD (fun _ => envC) :=
  fun fuel =>
    gvr_none_of_degenerate sysLoop argsD (fun _ => envC) (Or.inl rfl) rfl
      ⟨0, by norm_num [sysLoop]⟩ fuel 0

end DensityMP
